import Mathlib

/-!
Verification of the mini-redis core: a shallow embedding of the frame codec
(`src/frame.rs`), the shared store (`src/db.rs`), the connection read loop
(`src/connection.rs`), the listener accept loop (`src/server.rs`) and the
shutdown observer (`src/shutdown.rs`), together with theorems settling the
specification's claims about them.

Machine integers (`u64`, `usize`) are modelled as `Nat` with explicit
`< 2 ^ 64` bounds where they matter; byte buffers as `List Nat`; fallible
operations return `Option` or `Except`.
-/

namespace MiniRedis

/-! ### Bytes and cursor helpers (src/frame.rs, lines 213–265)

A `Cursor<&[u8]>` is modelled by the list of bytes remaining after the
cursor position; a byte is a `Nat` (with values below 256 in practice).
Consuming operations return the new remaining list, so "consumed length"
is the difference of list lengths. -/

/-- `frame::Error`: either not enough data (`Incomplete`) or an invalid
message encoding (`Other`, carrying the error message). -/
inductive FrameError where
  | incomplete : FrameError
  | other (msg : String) : FrameError
deriving DecidableEq, Repr

/-- `get_line`: scan forward for the first `\r\n` pair; on success return the
line before it together with the bytes after the pair, `none` when no full
line is buffered yet (→ `Error::Incomplete`). -/
def getLine : List Nat → Option (List Nat × List Nat)
  | a :: b :: rest =>
    if a = 13 ∧ b = 10 then
      some ([], rest)
    else
      match getLine (b :: rest) with
      | some (l, r) => some (a :: l, r)
      | none => none
  | _ => none

/-- `skip(src, n)`: advance `n` bytes; `none` (→ `Incomplete`) when fewer
than `n` bytes remain. -/
def skipn (n : Nat) (xs : List Nat) : Option (List Nat) :=
  if n ≤ xs.length then some (xs.drop n) else none

/-- ASCII decimal digit test. -/
def isDigit (b : Nat) : Bool := 48 ≤ b && b ≤ 57

/-- The numeric value of a big-endian ASCII digit string. -/
def digitsVal (l : List Nat) : Nat := l.foldl (fun a d => 10 * a + (d - 48)) 0

/-- Modelled from the `atoi` crate's documented behaviour (`atoi::<u64>` as
called by `get_decimal`): parsing succeeds iff the slice is nonempty,
consists entirely of ASCII digits, and its value fits in a `u64`. -/
def atoiU64 (l : List Nat) : Option Nat :=
  if l ≠ [] ∧ l.all isDigit ∧ digitsVal l < 2 ^ 64 then some (digitsVal l) else none

/-- `get_decimal`: read a line and parse it as a `u64`. -/
def getDecimal (xs : List Nat) : Except FrameError (Nat × List Nat) :=
  match getLine xs with
  | none => .error .incomplete
  | some (l, r) =>
    match atoiU64 l with
    | none => .error (.other "protocol error; invalid frame format")
    | some n => .ok (n, r)

/-! Structure lemmas about the cursor helpers, used both for the termination
of `check`/`parse` and in the claim proofs. -/

theorem getLine_some : ∀ {xs l r : List Nat}, getLine xs = some (l, r) →
    xs = l ++ 13 :: 10 :: r := by
  intro xs
  induction xs with
  | nil => intro l r h; simp [getLine] at h
  | cons a tl ih =>
    intro l r h
    match tl with
    | [] => simp [getLine] at h
    | b :: rest =>
      rw [getLine] at h
      by_cases hab : a = 13 ∧ b = 10
      · simp only [hab, if_true] at h
        obtain ⟨h1, h2⟩ := Prod.mk.injEq .. ▸ Option.some.injEq .. ▸ h
        subst h1; subst h2
        simp [hab.1, hab.2]
      · simp only [hab, if_false] at h
        cases hgl : getLine (b :: rest) with
        | none => rw [hgl] at h; exact absurd h (by simp)
        | some p =>
          obtain ⟨l', r'⟩ := p
          rw [hgl] at h
          simp only [Option.some.injEq, Prod.mk.injEq] at h
          obtain ⟨h1, h2⟩ := h
          have := ih hgl
          subst h1; subst h2
          simp [this]

theorem getLine_length {xs l r : List Nat} (h : getLine xs = some (l, r)) :
    xs.length = l.length + 2 + r.length := by
  have := getLine_some h
  subst this
  simp
  omega

theorem skipn_eq_some {n : Nat} {xs r : List Nat} (h : skipn n xs = some r) :
    n ≤ xs.length ∧ r = xs.drop n := by
  unfold skipn at h
  split at h
  · exact ⟨by assumption, by simpa using h.symm⟩
  · exact absurd h (by simp)

theorem skipn_length {n : Nat} {xs r : List Nat} (h : skipn n xs = some r) :
    r.length + n = xs.length := by
  obtain ⟨hle, hr⟩ := skipn_eq_some h
  subst hr
  simp
  omega

theorem getDecimal_ok {xs : List Nat} {n : Nat} {r : List Nat}
    (h : getDecimal xs = .ok (n, r)) :
    ∃ l, getLine xs = some (l, r) ∧ atoiU64 l = some n := by
  cases hgl : getLine xs with
  | none => simp [getDecimal, hgl] at h
  | some p =>
    obtain ⟨l, r'⟩ := p
    cases hat : atoiU64 l with
    | none => simp [getDecimal, hgl, hat] at h
    | some m =>
      simp only [getDecimal, hgl, hat] at h
      simp only [Except.ok.injEq, Prod.mk.injEq] at h
      obtain ⟨h1, h2⟩ := h
      subst h1; subst h2
      exact ⟨l, rfl, hat⟩

theorem getDecimal_length {xs : List Nat} {n : Nat} {r : List Nat}
    (h : getDecimal xs = .ok (n, r)) : r.length + 2 ≤ xs.length := by
  obtain ⟨l, hgl, -⟩ := getDecimal_ok h
  have := getLine_length hgl
  omega

/-! ### Frames (src/frame.rs, lines 9–18) -/

/-- UTF-8 continuation byte test (`0x80 ≤ b ≤ 0xBF`). -/
def isCont (b : Nat) : Bool := 128 ≤ b && b ≤ 191

/-- Exact UTF-8 validity, as checked by `String::from_utf8`: no overlong
encodings, no surrogates, code points at most `U+10FFFF`. -/
def validUtf8 : List Nat → Bool
  | [] => true
  | b0 :: rest =>
    if b0 < 128 then validUtf8 rest
    else
      match rest with
      | [] => false
      | b1 :: rest1 =>
        if 194 ≤ b0 ∧ b0 ≤ 223 then isCont b1 && validUtf8 rest1
        else
          match rest1 with
          | [] => false
          | b2 :: rest2 =>
            if (b0 = 224 ∧ (160 ≤ b1 ∧ b1 ≤ 191) ∨
                ((225 ≤ b0 ∧ b0 ≤ 236) ∨ b0 = 238 ∨ b0 = 239) ∧ isCont b1 = true ∨
                b0 = 237 ∧ (128 ≤ b1 ∧ b1 ≤ 159)) ∧ isCont b2 = true then
              validUtf8 rest2
            else
              match rest2 with
              | [] => false
              | b3 :: rest3 =>
                if (b0 = 240 ∧ (144 ≤ b1 ∧ b1 ≤ 191) ∨
                    (241 ≤ b0 ∧ b0 ≤ 243) ∧ isCont b1 = true ∨
                    b0 = 244 ∧ (128 ≤ b1 ∧ b1 ≤ 143)) ∧
                    isCont b2 = true ∧ isCont b3 = true then
                  validUtf8 rest3
                else false

/-- A frame in the Redis protocol (`Frame`).  `Simple`/`Error` strings are
stored as their UTF-8 bytes, `Bulk` as raw bytes, `Integer` as a natural
(a `u64` in the source). -/
inductive Frame where
  | simple (s : List Nat)
  | error (s : List Nat)
  | integer (n : Nat)
  | bulk (b : List Nat)
  | null
  | array (elems : List Frame)

/-! ### `Frame::check` (src/frame.rs, lines 63–101)

The two mutually recursive functions below return, on success, the bytes
remaining after one full frame (respectively after `n` frames).  The
subtype bound — a successful `check` consumes at least one byte — is what
makes the recursion terminate, and is also used by the claim proofs. -/

/-- After a successful `get_line` the remainder is shorter than the buffer
including its leading type byte. -/
theorem getLine_rest_lt {xs l r : List Nat} (h : getLine xs = some (l, r))
    (b : Nat) : r.length < (b :: xs).length := by
  have := getLine_length h
  simp only [List.length_cons]
  omega

/-- Same bound for `get_decimal`. -/
theorem getDecimal_rest_lt {xs r : List Nat} {n : Nat}
    (h : getDecimal xs = .ok (n, r)) (b : Nat) : r.length < (b :: xs).length := by
  have := getDecimal_length h
  simp only [List.length_cons]
  omega

/-- Same bound for `skip`. -/
theorem skipn_rest_lt {xs r : List Nat} {n : Nat} (h : skipn n xs = some r)
    (b : Nat) : r.length < (b :: xs).length := by
  have := skipn_length h
  simp only [List.length_cons]
  omega

/-- Bound for a `skip` following a `get_decimal` (the bulk-string case). -/
theorem skipn_after_getDecimal_lt {xs r1 r2 : List Nat} {len n : Nat}
    (h : getDecimal xs = .ok (len, r1)) (h2 : skipn n r1 = some r2)
    (b : Nat) : r2.length < (b :: xs).length := by
  have := getDecimal_length h
  have := skipn_length h2
  simp only [List.length_cons]
  omega

/-- Bound for a non-increasing step after a `get_decimal` (the array case). -/
theorem le_after_getDecimal_lt {xs r1 r2 : List Nat} {len : Nat}
    (h : getDecimal xs = .ok (len, r1)) (h2 : r2.length ≤ r1.length)
    (b : Nat) : r2.length < (b :: xs).length := by
  have := getDecimal_length h
  simp only [List.length_cons]
  omega

mutual

/-- `Frame::check` over the remaining bytes: validate that one full frame
is buffered, without building it.  Nat literals: `43 = '+'`, `45 = '-'`,
`58 = ':'`, `36 = '$'`, `42 = '*'`, `13 = '\r'`, `10 = '\n'`. -/
def checkAux : (xs : List Nat) →
    Except FrameError { r : List Nat // r.length < xs.length }
  | [] => .error .incomplete
  | b :: rest =>
    if b = 43 then
      match h : getLine rest with
      | none => .error .incomplete
      | some (_, r) => .ok ⟨r, getLine_rest_lt h b⟩
    else if b = 45 then
      match h : getLine rest with
      | none => .error .incomplete
      | some (_, r) => .ok ⟨r, getLine_rest_lt h b⟩
    else if b = 58 then
      match h : getDecimal rest with
      | .error e => .error e
      | .ok (_, r) => .ok ⟨r, getDecimal_rest_lt h b⟩
    else if b = 36 then
      match rest.head? with
      | none => .error .incomplete
      | some c =>
        if c = 45 then
          -- skip '-1\r\n'
          match h : skipn 4 rest with
          | none => .error .incomplete
          | some r => .ok ⟨r, skipn_rest_lt h b⟩
        else
          match h : getDecimal rest with
          | .error e => .error e
          | .ok (len, r1) =>
            -- skip the `len` data bytes plus the trailing `\r\n`
            match h2 : skipn (len + 2) r1 with
            | none => .error .incomplete
            | some r2 => .ok ⟨r2, skipn_after_getDecimal_lt h h2 b⟩
    else if b = 42 then
      match h : getDecimal rest with
      | .error e => .error e
      | .ok (len, r1) =>
        match checkManyAux len r1 with
        | .error e => .error e
        | .ok ⟨r2, h2⟩ => .ok ⟨r2, le_after_getDecimal_lt h h2 b⟩
    else
      .error (.other ("protocol error; invalid frame type byte `" ++ toString b ++ "`"))
termination_by xs => (xs.length, 0)
decreasing_by
  simp_wf
  have := getDecimal_length h
  try simp only [List.length_cons]
  exact Prod.Lex.left _ _ (by omega)

/-- The `b'*'` loop of `Frame::check`: check `n` consecutive frames. -/
def checkManyAux : (n : Nat) → (xs : List Nat) →
    Except FrameError { r : List Nat // r.length ≤ xs.length }
  | 0, xs => .ok ⟨xs, Nat.le_refl _⟩
  | n + 1, xs =>
    match checkAux xs with
    | .error e => .error e
    | .ok ⟨r, h⟩ =>
      match checkManyAux n r with
      | .error e => .error e
      | .ok ⟨r2, h2⟩ => .ok ⟨r2, by omega⟩
termination_by n xs => (xs.length, n + 1)
decreasing_by
  · simp_wf
    exact Prod.Lex.right _ (by omega)
  · simp_wf
    exact Prod.Lex.left _ _ (by omega)

end

/-- `Frame::check` with the subtype bound erased: the result is the list of
bytes remaining after the checked frame. -/
def check (xs : List Nat) : Except FrameError (List Nat) :=
  (checkAux xs).map Subtype.val

/-- The `check` loop over `n` frames, bound erased. -/
def checkMany (n : Nat) (xs : List Nat) : Except FrameError (List Nat) :=
  (checkManyAux n xs).map Subtype.val

/-! Branch equations for `check` and `checkMany`, in the form used by the
claim proofs: one equation per (branch, outcome) pair. -/

theorem check_ok_length {xs r : List Nat} (h : check xs = .ok r) :
    r.length < xs.length := by
  unfold check at h
  cases hc : checkAux xs with
  | error e => rw [hc] at h; cases h
  | ok s =>
    rw [hc] at h
    simp only [Except.map, Except.ok.injEq] at h
    exact h ▸ s.property

theorem checkMany_ok_length {n : Nat} {xs r : List Nat}
    (h : checkMany n xs = .ok r) : r.length ≤ xs.length := by
  unfold checkMany at h
  cases hc : checkManyAux n xs with
  | error e => rw [hc] at h; cases h
  | ok s =>
    rw [hc] at h
    simp only [Except.map, Except.ok.injEq] at h
    exact h ▸ s.property

theorem check_nil : check [] = .error .incomplete := by
  simp [check, checkAux, Except.map]

theorem check_plus_none {rest : List Nat} (h : getLine rest = none) :
    check (43 :: rest) = .error .incomplete := by
  simp only [check, checkAux, Nat.reduceEqDiff, reduceIte]
  split
  next heq => simp [Except.map]
  next l2 r2 heq => rw [h] at heq; cases heq

theorem check_plus_some {rest l r : List Nat} (h : getLine rest = some (l, r)) :
    check (43 :: rest) = .ok r := by
  simp only [check, checkAux, Nat.reduceEqDiff, reduceIte]
  split
  next heq => rw [h] at heq; cases heq
  next l2 r2 heq =>
    rw [h] at heq
    injection heq with heq2
    injection heq2 with h1 h2
    subst h2
    simp [Except.map]

theorem check_minus_none {rest : List Nat} (h : getLine rest = none) :
    check (45 :: rest) = .error .incomplete := by
  simp only [check, checkAux, Nat.reduceEqDiff, reduceIte]
  split
  next heq => simp [Except.map]
  next l2 r2 heq => rw [h] at heq; cases heq

theorem check_minus_some {rest l r : List Nat} (h : getLine rest = some (l, r)) :
    check (45 :: rest) = .ok r := by
  simp only [check, checkAux, Nat.reduceEqDiff, reduceIte]
  split
  next heq => rw [h] at heq; cases heq
  next l2 r2 heq =>
    rw [h] at heq
    injection heq with heq2
    injection heq2 with h1 h2
    subst h2
    simp [Except.map]

theorem check_colon_err {rest : List Nat} {e : FrameError}
    (h : getDecimal rest = .error e) : check (58 :: rest) = .error e := by
  simp only [check, checkAux, Nat.reduceEqDiff, reduceIte]
  split
  next e2 heq => rw [h] at heq; injection heq with h1; subst h1; simp [Except.map]
  next n2 r2 heq => rw [h] at heq; cases heq

theorem check_colon_ok {rest r : List Nat} {n : Nat}
    (h : getDecimal rest = .ok (n, r)) : check (58 :: rest) = .ok r := by
  simp only [check, checkAux, Nat.reduceEqDiff, reduceIte]
  split
  next e2 heq => rw [h] at heq; cases heq
  next n2 r2 heq =>
    rw [h] at heq
    injection heq with heq2
    injection heq2 with h1 h2
    subst h2
    simp [Except.map]

theorem check_dollar_nil : check [36] = .error .incomplete := by
  simp [check, checkAux, Except.map]

theorem check_dollar_neg_none {rest : List Nat} (hh : rest.head? = some 45)
    (h : skipn 4 rest = none) : check (36 :: rest) = .error .incomplete := by
  simp only [check, checkAux, Nat.reduceEqDiff, reduceIte, hh]
  split
  next heq => simp [Except.map]
  next r2 heq => rw [h] at heq; cases heq

theorem check_dollar_neg_some {rest r : List Nat} (hh : rest.head? = some 45)
    (h : skipn 4 rest = some r) : check (36 :: rest) = .ok r := by
  simp only [check, checkAux, Nat.reduceEqDiff, reduceIte, hh]
  split
  next heq => rw [h] at heq; cases heq
  next r2 heq =>
    rw [h] at heq
    injection heq with h1
    subst h1
    simp [Except.map]

theorem check_dollar_pos_err {rest : List Nat} {c : Nat} {e : FrameError}
    (hh : rest.head? = some c) (hc : c ≠ 45)
    (h : getDecimal rest = .error e) : check (36 :: rest) = .error e := by
  simp only [check, checkAux, Nat.reduceEqDiff, reduceIte, hh, if_neg hc]
  split
  next e2 heq => rw [h] at heq; injection heq with h1; subst h1; simp [Except.map]
  next len2 r2 heq => rw [h] at heq; cases heq

theorem check_dollar_pos_skip_none {rest r1 : List Nat} {c len : Nat}
    (hh : rest.head? = some c) (hc : c ≠ 45)
    (h : getDecimal rest = .ok (len, r1)) (h2 : skipn (len + 2) r1 = none) :
    check (36 :: rest) = .error .incomplete := by
  simp only [check, checkAux, Nat.reduceEqDiff, reduceIte, hh, if_neg hc]
  split
  next e2 heq => rw [h] at heq; cases heq
  next len2 r2 heq =>
    rw [h] at heq
    injection heq with heq2
    injection heq2 with hl hr
    subst hl; subst hr
    split
    next heq2 => simp [Except.map]
    next r3 heq2 => rw [h2] at heq2; cases heq2

theorem check_dollar_pos_skip_some {rest r1 r2 : List Nat} {c len : Nat}
    (hh : rest.head? = some c) (hc : c ≠ 45)
    (h : getDecimal rest = .ok (len, r1)) (h2 : skipn (len + 2) r1 = some r2) :
    check (36 :: rest) = .ok r2 := by
  simp only [check, checkAux, Nat.reduceEqDiff, reduceIte, hh, if_neg hc]
  split
  next e2 heq => rw [h] at heq; cases heq
  next len2 r3 heq =>
    rw [h] at heq
    injection heq with heq2
    injection heq2 with hl hr
    subst hl; subst hr
    split
    next heq2 => rw [h2] at heq2; cases heq2
    next r3 heq2 =>
      rw [h2] at heq2
      injection heq2 with h1
      subst h1
      simp [Except.map]

theorem check_star_err {rest : List Nat} {e : FrameError}
    (h : getDecimal rest = .error e) : check (42 :: rest) = .error e := by
  simp only [check, checkAux, Nat.reduceEqDiff, reduceIte]
  split
  next e2 heq => rw [h] at heq; injection heq with h1; subst h1; simp [Except.map]
  next len2 r2 heq => rw [h] at heq; cases heq

theorem check_star_ok {rest r1 : List Nat} {len : Nat}
    (h : getDecimal rest = .ok (len, r1)) :
    check (42 :: rest) = checkMany len r1 := by
  simp only [check, checkAux, Nat.reduceEqDiff, reduceIte]
  split
  next e2 heq => rw [h] at heq; cases heq
  next len2 r2 heq =>
    rw [h] at heq
    cases heq
    cases hcm : checkManyAux len r1 with
    | error e => simp [checkMany, hcm, Except.map]
    | ok s => simp [checkMany, hcm, Except.map]

theorem check_invalid {b : Nat} {rest : List Nat}
    (h43 : b ≠ 43) (h45 : b ≠ 45) (h58 : b ≠ 58) (h36 : b ≠ 36) (h42 : b ≠ 42) :
    check (b :: rest) =
      .error (.other ("protocol error; invalid frame type byte `" ++ toString b ++ "`")) := by
  simp [check, checkAux, if_neg h43, if_neg h45, if_neg h58, if_neg h36, if_neg h42,
    Except.map]

theorem checkMany_zero (xs : List Nat) : checkMany 0 xs = .ok xs := by
  simp [checkMany, checkManyAux, Except.map]

theorem checkMany_succ_err {xs : List Nat} {e : FrameError} (n : Nat)
    (h : check xs = .error e) : checkMany (n + 1) xs = .error e := by
  unfold check at h
  cases hc : checkAux xs with
  | error e2 =>
    rw [hc] at h
    injection h with h1
    subst h1
    simp [checkMany, checkManyAux, hc, Except.map]
  | ok s => rw [hc] at h; cases h

theorem checkMany_succ_ok {xs r : List Nat} (n : Nat)
    (h : check xs = .ok r) : checkMany (n + 1) xs = checkMany n r := by
  unfold check at h
  cases hc : checkAux xs with
  | error e2 => rw [hc] at h; cases h
  | ok s =>
    rw [hc] at h
    simp only [Except.map, Except.ok.injEq] at h
    obtain ⟨r2, hlt⟩ := s
    simp only at h
    subst h
    simp only [checkMany, checkManyAux, hc]
    cases hcm : checkManyAux n r2 with
    | error e => simp [hcm, Except.map]
    | ok s2 => simp [hcm, Except.map]

/-! ### `Frame::parse` (src/frame.rs, lines 103–166) -/

mutual

/-- `Frame::parse` over the remaining bytes: decode one frame.  The `u64 →
usize` narrowing (`try_into`) is the identity on a 64-bit target, where
`usize` and `u64` have the same range, so it is not modelled as fallible.
The `unimplemented!()` panic on an unknown type byte is modelled as a
protocol error (that branch is unreachable after `check`). -/
def parseAux : (xs : List Nat) →
    Except FrameError { p : Frame × List Nat // p.2.length < xs.length }
  | [] => .error .incomplete
  | b :: rest =>
    if b = 43 then
      match h : getLine rest with
      | none => .error .incomplete
      | some (l, r) =>
        if validUtf8 l then .ok ⟨(.simple l, r), getLine_rest_lt h b⟩
        else .error (.other "protocol error; invalid frame format")
    else if b = 45 then
      match h : getLine rest with
      | none => .error .incomplete
      | some (l, r) =>
        if validUtf8 l then .ok ⟨(.error l, r), getLine_rest_lt h b⟩
        else .error (.other "protocol error; invalid frame format")
    else if b = 58 then
      match h : getDecimal rest with
      | .error e => .error e
      | .ok (n, r) => .ok ⟨(.integer n, r), getDecimal_rest_lt h b⟩
    else if b = 36 then
      match rest.head? with
      | none => .error .incomplete
      | some c =>
        if c = 45 then
          match h : getLine rest with
          | none => .error .incomplete
          | some (l, r) =>
            if l = [45, 49] then .ok ⟨(.null, r), getLine_rest_lt h b⟩
            else .error (.other "protocol error; invalid frame format")
        else
          match h : getDecimal rest with
          | .error e => .error e
          | .ok (len, r1) =>
            if hn : r1.length < len + 2 then .error .incomplete
            else
              .ok ⟨(.bulk (r1.take len), r1.drop (len + 2)), by
                have := getDecimal_length h
                have : (r1.drop (len + 2)).length ≤ r1.length := by
                  simp only [List.length_drop]
                  omega
                simp only [List.length_cons]
                omega⟩
    else if b = 42 then
      match h : getDecimal rest with
      | .error e => .error e
      | .ok (len, r1) =>
        match parseManyAux len r1 with
        | .error e => .error e
        | .ok ⟨(fs, r2), h2⟩ => .ok ⟨(.array fs, r2), le_after_getDecimal_lt h h2 b⟩
    else
      .error (.other "unimplemented")
termination_by xs => (xs.length, 0)
decreasing_by
  simp_wf
  have := getDecimal_length h
  try simp only [List.length_cons]
  exact Prod.Lex.left _ _ (by omega)

/-- The `b'*'` loop of `Frame::parse`: parse `n` consecutive frames. -/
def parseManyAux : (n : Nat) → (xs : List Nat) →
    Except FrameError { p : List Frame × List Nat // p.2.length ≤ xs.length }
  | 0, xs => .ok ⟨([], xs), Nat.le_refl _⟩
  | n + 1, xs =>
    match parseAux xs with
    | .error e => .error e
    | .ok ⟨(f, r), h⟩ =>
      match parseManyAux n r with
      | .error e => .error e
      | .ok ⟨(fs, r2), h2⟩ =>
        .ok ⟨(f :: fs, r2), by
          have h3 : r.length < xs.length := h
          have h4 : r2.length ≤ r.length := h2
          show r2.length ≤ xs.length
          omega⟩
termination_by n xs => (xs.length, n + 1)
decreasing_by
  · simp_wf
    exact Prod.Lex.right _ (by omega)
  · simp_wf
    have h3 : r.length < xs.length := h
    exact Prod.Lex.left _ _ (by omega)

end

/-- `Frame::parse` with the bound erased: on success, the decoded frame and
the bytes remaining after it. -/
def parse (xs : List Nat) : Except FrameError (Frame × List Nat) :=
  (parseAux xs).map Subtype.val

/-- The `parse` loop over `n` frames, bound erased. -/
def parseMany (n : Nat) (xs : List Nat) : Except FrameError (List Frame × List Nat) :=
  (parseManyAux n xs).map Subtype.val

/-! Branch equations for `parse` and `parseMany`. -/

theorem parse_ok_length {xs r : List Nat} {f : Frame} (h : parse xs = .ok (f, r)) :
    r.length < xs.length := by
  unfold parse at h
  cases hc : parseAux xs with
  | error e => rw [hc] at h; cases h
  | ok s =>
    rw [hc] at h
    simp only [Except.map, Except.ok.injEq] at h
    have := s.property
    rw [h] at this
    exact this

theorem parse_nil : parse [] = .error .incomplete := by
  simp [parse, parseAux, Except.map]

theorem parse_plus_none {rest : List Nat} (h : getLine rest = none) :
    parse (43 :: rest) = .error .incomplete := by
  simp only [parse, parseAux, Nat.reduceEqDiff, reduceIte]
  split
  next heq => simp [Except.map]
  next l2 r2 heq => rw [h] at heq; cases heq

theorem parse_plus_some {rest l r : List Nat} (h : getLine rest = some (l, r)) :
    parse (43 :: rest) =
      if validUtf8 l then .ok (.simple l, r)
      else .error (.other "protocol error; invalid frame format") := by
  simp only [parse, parseAux, Nat.reduceEqDiff, reduceIte]
  split
  next heq => rw [h] at heq; cases heq
  next l2 r2 heq =>
    rw [h] at heq
    cases heq
    by_cases hv : validUtf8 l
    · simp [hv, Except.map]
    · simp [hv, Except.map]

theorem parse_minus_none {rest : List Nat} (h : getLine rest = none) :
    parse (45 :: rest) = .error .incomplete := by
  simp only [parse, parseAux, Nat.reduceEqDiff, reduceIte]
  split
  next heq => simp [Except.map]
  next l2 r2 heq => rw [h] at heq; cases heq

theorem parse_minus_some {rest l r : List Nat} (h : getLine rest = some (l, r)) :
    parse (45 :: rest) =
      if validUtf8 l then .ok (.error l, r)
      else .error (.other "protocol error; invalid frame format") := by
  simp only [parse, parseAux, Nat.reduceEqDiff, reduceIte]
  split
  next heq => rw [h] at heq; cases heq
  next l2 r2 heq =>
    rw [h] at heq
    cases heq
    by_cases hv : validUtf8 l
    · simp [hv, Except.map]
    · simp [hv, Except.map]

theorem parse_colon_err {rest : List Nat} {e : FrameError}
    (h : getDecimal rest = .error e) : parse (58 :: rest) = .error e := by
  simp only [parse, parseAux, Nat.reduceEqDiff, reduceIte]
  split
  next e2 heq => rw [h] at heq; cases heq; simp [Except.map]
  next n2 r2 heq => rw [h] at heq; cases heq

theorem parse_colon_ok {rest r : List Nat} {n : Nat}
    (h : getDecimal rest = .ok (n, r)) : parse (58 :: rest) = .ok (.integer n, r) := by
  simp only [parse, parseAux, Nat.reduceEqDiff, reduceIte]
  split
  next e2 heq => rw [h] at heq; cases heq
  next n2 r2 heq => rw [h] at heq; cases heq; simp [Except.map]

theorem parse_dollar_nil : parse [36] = .error .incomplete := by
  simp [parse, parseAux, Except.map]

theorem parse_dollar_neg_none {rest : List Nat} (hh : rest.head? = some 45)
    (h : getLine rest = none) : parse (36 :: rest) = .error .incomplete := by
  simp only [parse, parseAux, Nat.reduceEqDiff, reduceIte, hh]
  split
  next heq => simp [Except.map]
  next l2 r2 heq => rw [h] at heq; cases heq

theorem parse_dollar_neg_some {rest l r : List Nat} (hh : rest.head? = some 45)
    (h : getLine rest = some (l, r)) :
    parse (36 :: rest) =
      if l = [45, 49] then .ok (.null, r)
      else .error (.other "protocol error; invalid frame format") := by
  simp only [parse, parseAux, Nat.reduceEqDiff, reduceIte, hh]
  split
  next heq => rw [h] at heq; cases heq
  next l2 r2 heq =>
    rw [h] at heq
    cases heq
    by_cases hl : l = [45, 49]
    · simp [hl, Except.map]
    · simp [hl, Except.map]

theorem parse_dollar_pos_err {rest : List Nat} {c : Nat} {e : FrameError}
    (hh : rest.head? = some c) (hc : c ≠ 45)
    (h : getDecimal rest = .error e) : parse (36 :: rest) = .error e := by
  simp only [parse, parseAux, Nat.reduceEqDiff, reduceIte, hh, if_neg hc]
  split
  next e2 heq => rw [h] at heq; cases heq; simp [Except.map]
  next len2 r2 heq => rw [h] at heq; cases heq

theorem parse_dollar_pos_short {rest r1 : List Nat} {c len : Nat}
    (hh : rest.head? = some c) (hc : c ≠ 45)
    (h : getDecimal rest = .ok (len, r1)) (h2 : r1.length < len + 2) :
    parse (36 :: rest) = .error .incomplete := by
  simp only [parse, parseAux, Nat.reduceEqDiff, reduceIte, hh, if_neg hc]
  split
  next e2 heq => rw [h] at heq; cases heq
  next len2 r2 heq =>
    rw [h] at heq
    cases heq
    simp [dif_pos h2, Except.map]

theorem parse_dollar_pos_ok {rest r1 : List Nat} {c len : Nat}
    (hh : rest.head? = some c) (hc : c ≠ 45)
    (h : getDecimal rest = .ok (len, r1)) (h2 : ¬r1.length < len + 2) :
    parse (36 :: rest) = .ok (.bulk (r1.take len), r1.drop (len + 2)) := by
  simp only [parse, parseAux, Nat.reduceEqDiff, reduceIte, hh, if_neg hc]
  split
  next e2 heq => rw [h] at heq; cases heq
  next len2 r2 heq =>
    rw [h] at heq
    cases heq
    simp [dif_neg h2, Except.map]

theorem parse_star_err {rest : List Nat} {e : FrameError}
    (h : getDecimal rest = .error e) : parse (42 :: rest) = .error e := by
  simp only [parse, parseAux, Nat.reduceEqDiff, reduceIte]
  split
  next e2 heq => rw [h] at heq; cases heq; simp [Except.map]
  next len2 r2 heq => rw [h] at heq; cases heq

theorem parse_star_many_err {rest r1 : List Nat} {len : Nat} {e : FrameError}
    (h : getDecimal rest = .ok (len, r1)) (h2 : parseMany len r1 = .error e) :
    parse (42 :: rest) = .error e := by
  unfold parseMany at h2
  cases hp : parseManyAux len r1 with
  | error e2 =>
    rw [hp] at h2
    cases h2
    simp only [parse, parseAux, Nat.reduceEqDiff, reduceIte]
    split
    next e2 heq => rw [h] at heq; cases heq
    next len2 r2 heq =>
      rw [h] at heq
      cases heq
      simp [hp, Except.map]
  | ok s => rw [hp] at h2; cases h2

theorem parse_star_many_ok {rest r1 r2 : List Nat} {len : Nat} {fs : List Frame}
    (h : getDecimal rest = .ok (len, r1)) (h2 : parseMany len r1 = .ok (fs, r2)) :
    parse (42 :: rest) = .ok (.array fs, r2) := by
  unfold parseMany at h2
  cases hp : parseManyAux len r1 with
  | error e2 => rw [hp] at h2; cases h2
  | ok s =>
    rw [hp] at h2
    simp only [Except.map, Except.ok.injEq] at h2
    obtain ⟨⟨f2, r3⟩, hle⟩ := s
    simp only at h2
    injection h2 with ha hb
    subst ha
    subst hb
    simp only [parse, parseAux, Nat.reduceEqDiff, reduceIte]
    split
    next e2 heq => rw [h] at heq; cases heq
    next len2 r4 heq =>
      rw [h] at heq
      cases heq
      rw [hp]
      simp [Except.map]

theorem parse_unknown {b : Nat} {rest : List Nat}
    (h43 : b ≠ 43) (h45 : b ≠ 45) (h58 : b ≠ 58) (h36 : b ≠ 36) (h42 : b ≠ 42) :
    parse (b :: rest) = .error (.other "unimplemented") := by
  simp [parse, parseAux, if_neg h43, if_neg h45, if_neg h58, if_neg h36, if_neg h42,
    Except.map]

theorem parseMany_zero (xs : List Nat) : parseMany 0 xs = .ok ([], xs) := by
  simp [parseMany, parseManyAux, Except.map]

theorem parseMany_succ_err {xs : List Nat} {e : FrameError} (n : Nat)
    (h : parse xs = .error e) : parseMany (n + 1) xs = .error e := by
  unfold parse at h
  cases hc : parseAux xs with
  | error e2 =>
    rw [hc] at h
    cases h
    simp [parseMany, parseManyAux, hc, Except.map]
  | ok s => rw [hc] at h; cases h

theorem parseMany_succ_ok {xs r : List Nat} {f : Frame} (n : Nat)
    (h : parse xs = .ok (f, r)) :
    parseMany (n + 1) xs =
      match parseMany n r with
      | .error e => .error e
      | .ok (fs, r2) => .ok (f :: fs, r2) := by
  unfold parse at h
  cases hc : parseAux xs with
  | error e2 => rw [hc] at h; cases h
  | ok s =>
    rw [hc] at h
    simp only [Except.map, Except.ok.injEq] at h
    obtain ⟨⟨f2, r2⟩, hlt⟩ := s
    simp only at h
    injection h with ha hb
    subst ha
    subst hb
    simp only [parseMany, parseManyAux, hc]
    cases hp : parseManyAux n r2 with
    | error e => simp [parseMany, hp, Except.map]
    | ok s2 =>
      obtain ⟨⟨fs2, r3⟩, hle⟩ := s2
      simp [parseMany, hp, Except.map]

/-! ### Agreement of `check` and `parse` (claim C1) -/

/-- A successful `get_line` on a `-1` line determines the `skip 4` result
taken by `check` in the `$-` branch. -/
theorem skipn_four_of_getLine_neg_one {rest r : List Nat}
    (h : getLine rest = some ([45, 49], r)) : skipn 4 rest = some r := by
  have := getLine_some h
  subst this
  simp [skipn]

/-- If `parse` succeeds, `check` succeeds and consumes exactly the same
bytes; likewise for the array loops.  Proved by strong induction on the
buffer length. -/
theorem parse_imp_check_upto : ∀ L : Nat,
    (∀ xs (f : Frame) r, xs.length ≤ L → parse xs = .ok (f, r) → check xs = .ok r) ∧
    (∀ n xs (fs : List Frame) r, xs.length ≤ L → parseMany n xs = .ok (fs, r) →
      checkMany n xs = .ok r) := by
  intro L
  induction L using Nat.strong_induction_on with
  | _ L IH =>
    have hP : ∀ xs (f : Frame) r, xs.length ≤ L → parse xs = .ok (f, r) →
        check xs = .ok r := by
      intro xs f r hlen h
      match xs with
      | [] => rw [parse_nil] at h; cases h
      | b :: rest =>
        have hL1 : 1 ≤ L := by
          have : (b :: rest).length ≤ L := hlen
          simp at this
          omega
        by_cases hb43 : b = 43
        · subst hb43
          cases hgl : getLine rest with
          | none => rw [parse_plus_none hgl] at h; cases h
          | some p =>
            obtain ⟨l, r1⟩ := p
            rw [parse_plus_some hgl] at h
            by_cases hv : validUtf8 l
            · rw [if_pos hv] at h
              cases h
              exact check_plus_some hgl
            · rw [if_neg hv] at h; cases h
        · by_cases hb45 : b = 45
          · subst hb45
            cases hgl : getLine rest with
            | none => rw [parse_minus_none hgl] at h; cases h
            | some p =>
              obtain ⟨l, r1⟩ := p
              rw [parse_minus_some hgl] at h
              by_cases hv : validUtf8 l
              · rw [if_pos hv] at h
                cases h
                exact check_minus_some hgl
              · rw [if_neg hv] at h; cases h
          · by_cases hb58 : b = 58
            · subst hb58
              cases hgd : getDecimal rest with
              | error e => rw [parse_colon_err hgd] at h; cases h
              | ok p =>
                obtain ⟨n, r1⟩ := p
                rw [parse_colon_ok hgd] at h
                cases h
                exact check_colon_ok hgd
            · by_cases hb36 : b = 36
              · subst hb36
                match rest with
                | [] => rw [parse_dollar_nil] at h; cases h
                | c :: rest2 =>
                  have hh : (c :: rest2).head? = some c := rfl
                  by_cases hc : c = 45
                  · subst hc
                    cases hgl : getLine (45 :: rest2) with
                    | none => rw [parse_dollar_neg_none hh hgl] at h; cases h
                    | some p =>
                      obtain ⟨l, r1⟩ := p
                      rw [parse_dollar_neg_some hh hgl] at h
                      by_cases hl : l = [45, 49]
                      · rw [if_pos hl] at h
                        cases h
                        subst hl
                        exact check_dollar_neg_some hh (skipn_four_of_getLine_neg_one hgl)
                      · rw [if_neg hl] at h; cases h
                  · cases hgd : getDecimal (c :: rest2) with
                    | error e => rw [parse_dollar_pos_err hh hc hgd] at h; cases h
                    | ok p =>
                      obtain ⟨len, r1⟩ := p
                      by_cases hshort : r1.length < len + 2
                      · rw [parse_dollar_pos_short hh hc hgd hshort] at h; cases h
                      · rw [parse_dollar_pos_ok hh hc hgd hshort] at h
                        cases h
                        have hsk : skipn (len + 2) r1 = some (r1.drop (len + 2)) := by
                          simp [skipn]
                          omega
                        exact check_dollar_pos_skip_some hh hc hgd hsk
              · by_cases hb42 : b = 42
                · subst hb42
                  cases hgd : getDecimal rest with
                  | error e => rw [parse_star_err hgd] at h; cases h
                  | ok p =>
                    obtain ⟨len, r1⟩ := p
                    cases hpm : parseMany len r1 with
                    | error e => rw [parse_star_many_err hgd hpm] at h; cases h
                    | ok q =>
                      obtain ⟨fs, r2⟩ := q
                      rw [parse_star_many_ok hgd hpm] at h
                      cases h
                      rw [check_star_ok hgd]
                      have hr1 : r1.length ≤ L - 1 := by
                        have := getDecimal_length hgd
                        have : (42 :: rest).length = rest.length + 1 := by simp
                        have hlen2 : rest.length + 1 ≤ L := by
                          simpa using hlen
                        omega
                      exact (IH (L - 1) (by omega)).2 len r1 fs r hr1 hpm
                · rw [parse_unknown hb43 hb45 hb58 hb36 hb42] at h; cases h
    refine ⟨hP, ?_⟩
    intro n
    induction n with
    | zero =>
      intro xs fs r hlen h
      rw [parseMany_zero] at h
      cases h
      exact checkMany_zero xs
    | succ n ihn =>
      intro xs fs r hlen h
      cases hp : parse xs with
      | error e => rw [parseMany_succ_err n hp] at h; cases h
      | ok p =>
        obtain ⟨f, r1⟩ := p
        rw [parseMany_succ_ok n hp] at h
        cases hpm : parseMany n r1 with
        | error e => rw [hpm] at h; cases h
        | ok q =>
          obtain ⟨fs2, r2⟩ := q
          rw [hpm] at h
          cases h
          rw [checkMany_succ_ok n (hP xs f r1 hlen hp)]
          have : r1.length ≤ L := by
            have := parse_ok_length hp
            omega
          exact ihn r1 fs2 r this hpm

/-- If `parse` succeeds, `check` succeeds with the same remainder. -/
theorem parse_imp_check {xs r : List Nat} {f : Frame}
    (h : parse xs = .ok (f, r)) : check xs = .ok r :=
  (parse_imp_check_upto xs.length).1 xs f r (Nat.le_refl _) h

/-! ### Stability of `check` under buffer extension (claim C2) -/

theorem getLine_append {xs l r ys : List Nat} (h : getLine xs = some (l, r)) :
    getLine (xs ++ ys) = some (l, r ++ ys) := by
  induction xs generalizing l with
  | nil => simp [getLine] at h
  | cons a tl ih =>
    match tl with
    | [] => simp [getLine] at h
    | b :: rest =>
      rw [getLine] at h
      by_cases hab : a = 13 ∧ b = 10
      · simp only [hab, if_true] at h
        cases h
        rw [List.cons_append, List.cons_append, getLine]
        simp [hab]
      · simp only [hab, if_false] at h
        cases hgl : getLine (b :: rest) with
        | none => rw [hgl] at h; cases h
        | some p =>
          obtain ⟨l2, r2⟩ := p
          rw [hgl] at h
          cases h
          have hext := ih hgl
          simp only [List.cons_append] at hext
          rw [List.cons_append, List.cons_append, getLine]
          simp only [hab, if_false]
          rw [hext]

theorem skipn_append {n : Nat} {xs r ys : List Nat} (h : skipn n xs = some r) :
    skipn n (xs ++ ys) = some (r ++ ys) := by
  obtain ⟨hle, hr⟩ := skipn_eq_some h
  subst hr
  simp [skipn, List.drop_append_of_le_length hle]
  omega

theorem getDecimal_append {xs r ys : List Nat} {n : Nat}
    (h : getDecimal xs = .ok (n, r)) : getDecimal (xs ++ ys) = .ok (n, r ++ ys) := by
  obtain ⟨l, hgl, hat⟩ := getDecimal_ok h
  simp [getDecimal, getLine_append hgl, hat]

/-- A successful `check` stays successful on any extension of the buffer,
with the same consumed bytes; likewise for the array loops. -/
theorem check_extend_upto : ∀ L : Nat,
    (∀ xs r ys, xs.length ≤ L → check xs = .ok r → check (xs ++ ys) = .ok (r ++ ys)) ∧
    (∀ n xs r ys, xs.length ≤ L → checkMany n xs = .ok r →
      checkMany n (xs ++ ys) = .ok (r ++ ys)) := by
  intro L
  induction L using Nat.strong_induction_on with
  | _ L IH =>
    have hP : ∀ xs r ys, xs.length ≤ L → check xs = .ok r →
        check (xs ++ ys) = .ok (r ++ ys) := by
      intro xs r ys hlen h
      match xs with
      | [] => rw [check_nil] at h; cases h
      | b :: rest =>
        have hxs : (b :: rest) ++ ys = b :: (rest ++ ys) := rfl
        by_cases hb43 : b = 43
        · subst hb43
          cases hgl : getLine rest with
          | none => rw [check_plus_none hgl] at h; cases h
          | some p =>
            obtain ⟨l, r1⟩ := p
            rw [check_plus_some hgl] at h
            cases h
            rw [hxs]
            exact check_plus_some (getLine_append hgl)
        · by_cases hb45 : b = 45
          · subst hb45
            cases hgl : getLine rest with
            | none => rw [check_minus_none hgl] at h; cases h
            | some p =>
              obtain ⟨l, r1⟩ := p
              rw [check_minus_some hgl] at h
              cases h
              rw [hxs]
              exact check_minus_some (getLine_append hgl)
          · by_cases hb58 : b = 58
            · subst hb58
              cases hgd : getDecimal rest with
              | error e => rw [check_colon_err hgd] at h; cases h
              | ok p =>
                obtain ⟨n, r1⟩ := p
                rw [check_colon_ok hgd] at h
                cases h
                rw [hxs]
                exact check_colon_ok (getDecimal_append hgd)
            · by_cases hb36 : b = 36
              · subst hb36
                match rest with
                | [] => rw [check_dollar_nil] at h; cases h
                | c :: rest2 =>
                  have hh : (c :: rest2).head? = some c := rfl
                  have hh2 : (c :: rest2 ++ ys).head? = some c := rfl
                  by_cases hc : c = 45
                  · subst hc
                    cases hsk : skipn 4 (45 :: rest2) with
                    | none => rw [check_dollar_neg_none hh hsk] at h; cases h
                    | some r1 =>
                      rw [check_dollar_neg_some hh hsk] at h
                      cases h
                      rw [hxs]
                      exact check_dollar_neg_some hh2 (skipn_append hsk)
                  · cases hgd : getDecimal (c :: rest2) with
                    | error e => rw [check_dollar_pos_err hh hc hgd] at h; cases h
                    | ok p =>
                      obtain ⟨len, r1⟩ := p
                      cases hsk : skipn (len + 2) r1 with
                      | none => rw [check_dollar_pos_skip_none hh hc hgd hsk] at h; cases h
                      | some r2 =>
                        rw [check_dollar_pos_skip_some hh hc hgd hsk] at h
                        cases h
                        rw [hxs]
                        exact check_dollar_pos_skip_some hh2 hc
                          (getDecimal_append hgd) (skipn_append hsk)
              · by_cases hb42 : b = 42
                · subst hb42
                  cases hgd : getDecimal rest with
                  | error e => rw [check_star_err hgd] at h; cases h
                  | ok p =>
                    obtain ⟨len, r1⟩ := p
                    rw [check_star_ok hgd] at h
                    rw [hxs, check_star_ok (getDecimal_append hgd)]
                    have hr1 : r1.length ≤ L - 1 := by
                      have := getDecimal_length hgd
                      have hlen2 : rest.length + 1 ≤ L := by simpa using hlen
                      omega
                    have hL1 : 1 ≤ L := by
                      have : rest.length + 1 ≤ L := by simpa using hlen
                      omega
                    exact (IH (L - 1) (by omega)).2 len r1 r ys hr1 h
                · rw [check_invalid hb43 hb45 hb58 hb36 hb42] at h; cases h
    refine ⟨hP, ?_⟩
    intro n
    induction n with
    | zero =>
      intro xs r ys hlen h
      rw [checkMany_zero] at h
      cases h
      exact checkMany_zero _
    | succ n ihn =>
      intro xs r ys hlen h
      cases hc : check xs with
      | error e => rw [checkMany_succ_err n hc] at h; cases h
      | ok r1 =>
        rw [checkMany_succ_ok n hc] at h
        rw [checkMany_succ_ok n (hP xs r1 ys hlen hc)]
        have : r1.length ≤ L := by
          have := check_ok_length hc
          omega
        exact ihn r1 r ys this h

/-- Extension stability of `check`, at the top level. -/
theorem check_extend {xs r ys : List Nat} (h : check xs = .ok r) :
    check (xs ++ ys) = .ok (r ++ ys) :=
  (check_extend_upto xs.length).1 xs r ys (Nat.le_refl _) h

/-! ### Claims C1 and C2 -/

/-- C1, counterexample: on the buffer `$-2\r\n` (bytes `[36, 45, 50, 13, 10]`),
`Frame::check` succeeds consuming the whole buffer (it blindly skips four
bytes after `$-`), while `Frame::parse` rejects the frame, so check-Ok is
not equivalent to parse success, and on buffers beginning `$-<digits>\r\n`
with digits other than `"1"` the two do not agree. -/
theorem C1_counterexample :
    check [36, 45, 50, 13, 10] = .ok [] ∧
    parse [36, 45, 50, 13, 10] =
      .error (.other "protocol error; invalid frame format") := by
  constructor
  · simp [check, checkAux, skipn, Except.map]
  · simp [parse, parseAux, getLine, Except.map]

/-- C1 (amended): if `Frame::parse(B)` succeeds consuming some prefix of
`B`, then `Frame::check(B)` returns Ok and consumes exactly the same number
of bytes.  (The reverse implication fails: `check` accepts `$-<line>\r\n`
for any line where `parse` demands exactly `-1`, as the counterexample
shows.) -/
theorem C1_theorem (xs r : List Nat) (f : Frame) (h : parse xs = .ok (f, r)) :
    check xs = .ok r := by
  exact parse_imp_check h

/-- Witness for `C1_theorem` at the concrete buffer `+OK\r\n`. -/
theorem C1_witness :
    parse [43, 79, 75, 13, 10] = .ok (.simple [79, 75], []) ∧
    check [43, 79, 75, 13, 10] = .ok [] := by
  have hp : parse [43, 79, 75, 13, 10] = .ok (.simple [79, 75], []) := by
    simp [parse, parseAux, getLine, validUtf8, Except.map]
  exact ⟨hp, C1_theorem _ _ _ hp⟩

/-- C2, counterexample: `check ":a" = Incomplete`, but extending the buffer
by `\r\n` completes a line whose content is not a valid decimal, so `check`
on the extension returns the `Other` (Invalid) error — extension does flip
Incomplete to Invalid. -/
theorem C2_counterexample :
    check [58, 97] = .error .incomplete ∧
    check ([58, 97] ++ [13, 10]) =
      .error (.other "protocol error; invalid frame format") := by
  constructor
  · simp [check, checkAux, getLine, getDecimal, Except.map]
  · simp [check, checkAux, getLine, getDecimal, atoiU64, isDigit, digitsVal,
      Except.map]

/-- C2 (amended): extending a buffer on which `check` returned `Incomplete`
can also produce the Invalid (`Other`) error, as the counterexample shows;
what is stable under extension is success: if `check(B)` returns Ok
consuming `n` bytes, then `check` on any extension `B ++ ys` returns Ok and
consumes the same `n` bytes. -/
theorem C2_theorem (xs ys r : List Nat) (h : check xs = .ok r) :
    check (xs ++ ys) = .ok (r ++ ys) ∧
    (xs ++ ys).length - (r ++ ys).length = xs.length - r.length := by
  refine ⟨check_extend h, ?_⟩
  have := check_ok_length h
  simp only [List.length_append]
  omega

/-- Witness for `C2_theorem`: the complete frame `:7\r\n` followed by two
junk bytes is still checked successfully with the same consumed length. -/
theorem C2_witness :
    check [58, 55, 13, 10] = .ok [] ∧
    check ([58, 55, 13, 10] ++ [43, 43]) = .ok ([] ++ [43, 43]) := by
  have hc : check [58, 55, 13, 10] = .ok [] := by
    simp [check, checkAux, getLine, getDecimal, atoiU64, isDigit, digitsVal,
      Except.map]
  exact ⟨hc, (C2_theorem _ _ _ hc).1⟩

/-! ### Frame encoding (src/connection.rs, lines 103–175) -/

/-- ASCII digits of `n`, least significant first (`[]` for `0`). -/
def toDigitsRev : Nat → List Nat
  | 0 => []
  | n + 1 => ((n + 1) % 10 + 48) :: toDigitsRev ((n + 1) / 10)
decreasing_by exact Nat.div_lt_self (Nat.succ_pos n) (by omega)

/-- `write_decimal`'s digit string: base-10 ASCII rendering of `val`
(`write!("{}", val)`), most significant digit first. -/
def natDigits (n : Nat) : List Nat :=
  if n = 0 then [48] else (toDigitsRev n).reverse

/-- `write_decimal`: the digit string followed by `\r\n`. -/
def encodeDecimal (n : Nat) : List Nat := natDigits n ++ [13, 10]

/-- `Connection::write_value`: the bytes written for one non-array frame.
The `unreachable!()` on `Array` is modelled as `none`. -/
def encodeValue : Frame → Option (List Nat)
  | .simple s => some (43 :: (s ++ [13, 10]))
  | .error s => some (45 :: (s ++ [13, 10]))
  | .integer n => some (58 :: encodeDecimal n)
  | .null => some [36, 45, 49, 13, 10]
  | .bulk b => some (36 :: (encodeDecimal b.length ++ b ++ [13, 10]))
  | .array _ => none

/-- The loop of `write_frame` over the entries of an array. -/
def encodeList : List Frame → Option (List Nat)
  | [] => some []
  | f :: fs =>
    match encodeValue f, encodeList fs with
    | some b, some bs => some (b ++ bs)
    | _, _ => none

/-- `Connection::write_frame`: an `Array` is written as `*<n>\r\n` followed
by each entry as a literal; any other frame is written as a literal. -/
def encodeFrame : Frame → Option (List Nat)
  | .array xs =>
    match encodeList xs with
    | some bs => some (42 :: (encodeDecimal xs.length ++ bs))
    | none => none
  | f => encodeValue f

/-! Digit-string facts used by the round-trip proof. -/

theorem toDigitsRev_digits : ∀ n, ∀ d ∈ toDigitsRev n, 48 ≤ d ∧ d ≤ 57 := by
  intro n
  induction n using Nat.strong_induction_on with
  | _ n IH =>
    match n with
    | 0 => intro d hd; simp [toDigitsRev] at hd
    | m + 1 =>
      intro d hd
      rw [toDigitsRev] at hd
      rcases List.mem_cons.mp hd with h | h
      · subst h
        have := Nat.mod_lt m (y := 10) (by omega)
        omega
      · exact IH ((m + 1) / 10) (Nat.div_lt_self (Nat.succ_pos m) (by omega)) d h

theorem natDigits_digits {n : Nat} : ∀ d ∈ natDigits n, 48 ≤ d ∧ d ≤ 57 := by
  intro d hd
  unfold natDigits at hd
  split at hd
  · simp at hd
    omega
  · exact toDigitsRev_digits n d (List.mem_reverse.mp hd)

theorem natDigits_ne_nil (n : Nat) : natDigits n ≠ [] := by
  unfold natDigits
  split
  · simp
  · next h =>
    match hn : n with
    | 0 => exact absurd rfl h
    | m + 1 => rw [toDigitsRev]; simp

theorem natDigits_all_isDigit (n : Nat) : (natDigits n).all isDigit = true := by
  rw [List.all_eq_true]
  intro d hd
  have := natDigits_digits (n := n) d hd
  simp [isDigit]
  omega

theorem natDigits_no_cr {n : Nat} : ¬13 ∈ natDigits n := by
  intro h
  have := natDigits_digits (n := n) 13 h
  omega

theorem digitsVal_append_singleton (xs : List Nat) (d : Nat) :
    digitsVal (xs ++ [d]) = 10 * digitsVal xs + (d - 48) := by
  simp [digitsVal, List.foldl_append]

theorem digitsVal_toDigitsRev : ∀ n, digitsVal (toDigitsRev n).reverse = n := by
  intro n
  induction n using Nat.strong_induction_on with
  | _ n IH =>
    match n with
    | 0 => simp [toDigitsRev, digitsVal]
    | m + 1 =>
      rw [toDigitsRev]
      simp only [List.reverse_cons]
      rw [digitsVal_append_singleton]
      rw [IH ((m + 1) / 10) (Nat.div_lt_self (Nat.succ_pos m) (by omega))]
      omega

theorem digitsVal_natDigits (n : Nat) : digitsVal (natDigits n) = n := by
  unfold natDigits
  split
  · next h => subst h; simp [digitsVal]
  · exact digitsVal_toDigitsRev n

/-- `atoi` inverts the decimal rendering, for values that fit in `u64`. -/
theorem atoiU64_natDigits {n : Nat} (h : n < 2 ^ 64) :
    atoiU64 (natDigits n) = some n := by
  unfold atoiU64
  rw [if_pos]
  · rw [digitsVal_natDigits]
  · exact ⟨natDigits_ne_nil n, natDigits_all_isDigit n, by rw [digitsVal_natDigits]; exact h⟩

/-- `get_line` on a CR-free line followed by `\r\n`. -/
theorem getLine_encode {l r : List Nat} (hcr : ¬13 ∈ l) :
    getLine (l ++ 13 :: 10 :: r) = some (l, r) := by
  induction l with
  | nil => simp [getLine]
  | cons a tl ih =>
    have ha : a ≠ 13 := by
      intro h
      exact hcr (h ▸ List.mem_cons_self a tl)
    have htl : ¬13 ∈ tl := fun h => hcr (List.mem_cons_of_mem a h)
    match htail : tl ++ 13 :: 10 :: r with
    | [] => exact absurd htail (by simp)
    | b :: rest2 =>
      show getLine (a :: (tl ++ 13 :: 10 :: r)) = _
      rw [htail, getLine]
      rw [if_neg (by intro hc; exact ha hc.1)]
      rw [← htail, ih htl]

/-- `get_decimal` on an encoded decimal followed by more bytes. -/
theorem getDecimal_encode {r : List Nat} {n : Nat} (h : n < 2 ^ 64) :
    getDecimal (natDigits n ++ 13 :: 10 :: r) = .ok (n, r) := by
  simp [getDecimal, getLine_encode natDigits_no_cr, atoiU64_natDigits h]

/-! ### The encode/parse round trip (claim C3) -/

/-- The conditions claim C3 places on a non-array frame, together with the
representation invariants the Rust types provide for free: `Simple`/`Error`
text has no CR or LF (the claim's hypothesis) and is valid UTF-8 (a
`String` invariant); `u64` values and `usize` lengths are below `2 ^ 64`. -/
def flatOk : Frame → Prop
  | .simple s => validUtf8 s = true ∧ ¬13 ∈ s ∧ ¬10 ∈ s
  | .error s => validUtf8 s = true ∧ ¬13 ∈ s ∧ ¬10 ∈ s
  | .integer n => n < 2 ^ 64
  | .bulk b => b.length < 2 ^ 64
  | .null => True
  | .array _ => False

/-- A frame with no array nested inside an array, whose components satisfy
`flatOk`. -/
def goodFrame : Frame → Prop
  | .array xs => xs.length < 2 ^ 64 ∧ ∀ f ∈ xs, flatOk f
  | f => flatOk f

theorem natDigits_head (n : Nat) :
    ∃ c cs, natDigits n = c :: cs ∧ 48 ≤ c ∧ c ≤ 57 := by
  cases hd : natDigits n with
  | nil => exact absurd hd (natDigits_ne_nil n)
  | cons c cs =>
    have hc := natDigits_digits (n := n) c (hd ▸ List.mem_cons_self c cs)
    exact ⟨c, cs, rfl, hc.1, hc.2⟩

/-- Decoding inverts `write_value`: parsing the encoding of a well-formed
non-array frame yields the frame back and consumes exactly its bytes. -/
theorem parse_encodeValue {f : Frame} {bs : List Nat} (hok : flatOk f)
    (henc : encodeValue f = some bs) (rest : List Nat) :
    parse (bs ++ rest) = .ok (f, rest) := by
  match f with
  | .simple s =>
    obtain ⟨hv, hcr, -⟩ := hok
    cases henc
    simp only [List.cons_append, List.append_assoc, List.nil_append]
    rw [parse_plus_some (getLine_encode hcr), if_pos hv]
  | .error s =>
    obtain ⟨hv, hcr, -⟩ := hok
    cases henc
    simp only [List.cons_append, List.append_assoc, List.nil_append]
    rw [parse_minus_some (getLine_encode hcr), if_pos hv]
  | .integer n =>
    cases henc
    simp only [encodeDecimal, List.cons_append, List.append_assoc, List.nil_append]
    rw [parse_colon_ok (getDecimal_encode hok)]
  | .null =>
    cases henc
    have hh : ([45, 49, 13, 10] ++ rest).head? = some 45 := rfl
    rw [show ([36, 45, 49, 13, 10] : List Nat) ++ rest = 36 :: ([45, 49, 13, 10] ++ rest)
      from rfl]
    have hgl : getLine ([45, 49, 13, 10] ++ rest) = some ([45, 49], rest) := by
      have : ([45, 49, 13, 10] : List Nat) ++ rest = [45, 49] ++ 13 :: 10 :: rest := rfl
      rw [this]
      exact getLine_encode (by decide)
    rw [parse_dollar_neg_some hh hgl, if_pos rfl]
  | .bulk b =>
    cases henc
    obtain ⟨c, cs, hnd, hc1, hc2⟩ := natDigits_head b.length
    simp only [encodeDecimal, List.cons_append, List.append_assoc, List.nil_append]
    have hh : (natDigits b.length ++ 13 :: 10 :: (b ++ 13 :: 10 :: rest)).head? = some c := by
      rw [hnd]; rfl
    have hc45 : c ≠ 45 := by omega
    have hgd : getDecimal (natDigits b.length ++ 13 :: 10 :: (b ++ 13 :: 10 :: rest)) =
        .ok (b.length, b ++ 13 :: 10 :: rest) := getDecimal_encode hok
    have hlong : ¬(b ++ 13 :: 10 :: rest).length < b.length + 2 := by
      simp
    rw [parse_dollar_pos_ok hh hc45 hgd hlong]
    have htake : (b ++ 13 :: 10 :: rest).take b.length = b :=
      List.take_left b (13 :: 10 :: rest)
    have hdrop : (b ++ 13 :: 10 :: rest).drop (b.length + 2) = rest := by
      rw [List.drop_append]
      rfl
    rw [htake, hdrop]
  | .array xs => cases henc

/-- Decoding inverts the array-entry loop of `write_frame`. -/
theorem parseMany_encodeList {xs : List Frame} {bs : List Nat}
    (hok : ∀ f ∈ xs, flatOk f) (henc : encodeList xs = some bs) (rest : List Nat) :
    parseMany xs.length (bs ++ rest) = .ok (xs, rest) := by
  induction xs generalizing bs with
  | nil =>
    cases henc
    simpa using parseMany_zero rest
  | cons f fs ih =>
    rw [encodeList] at henc
    cases hv : encodeValue f with
    | none => rw [hv] at henc; cases henc
    | some b =>
      cases hl : encodeList fs with
      | none => rw [hv, hl] at henc; cases henc
      | some bs2 =>
        rw [hv, hl] at henc
        cases henc
        have hf := hok f (List.mem_cons_self f fs)
        have hfs : ∀ g ∈ fs, flatOk g := fun g hg => hok g (List.mem_cons_of_mem f hg)
        rw [List.length_cons, List.append_assoc]
        rw [parseMany_succ_ok fs.length (parse_encodeValue hf hv (bs2 ++ rest))]
        rw [ih hfs hl]

/-- Decoding inverts `write_frame` on well-formed frames with no nested
arrays: `parse` returns the frame and consumes the whole encoding. -/
theorem parse_encodeFrame {F : Frame} (hok : goodFrame F) :
    ∃ bs, encodeFrame F = some bs ∧ parse bs = .ok (F, []) := by
  match F with
  | .array xs =>
    obtain ⟨hlen, hflat⟩ := hok
    have : ∃ bs2, encodeList xs = some bs2 := by
      clear hlen
      induction xs with
      | nil => exact ⟨[], rfl⟩
      | cons f fs ih =>
        have hf := hflat f (List.mem_cons_self f fs)
        have : ∃ b, encodeValue f = some b := by
          match f with
          | .simple s => exact ⟨_, rfl⟩
          | .error s => exact ⟨_, rfl⟩
          | .integer n => exact ⟨_, rfl⟩
          | .null => exact ⟨_, rfl⟩
          | .bulk b => exact ⟨_, rfl⟩
          | .array _ => cases hf
        obtain ⟨b, hb⟩ := this
        obtain ⟨bs2, hbs2⟩ := ih (fun g hg => hflat g (List.mem_cons_of_mem f hg))
        exact ⟨b ++ bs2, by rw [encodeList, hb, hbs2]⟩
    obtain ⟨bs2, hbs2⟩ := this
    refine ⟨42 :: (encodeDecimal xs.length ++ bs2), by rw [encodeFrame, hbs2], ?_⟩
    obtain ⟨c, cs, hnd, -, -⟩ := natDigits_head xs.length
    simp only [encodeDecimal, List.append_assoc, List.cons_append, List.nil_append]
    have hgd : getDecimal (natDigits xs.length ++ 13 :: 10 :: bs2) =
        .ok (xs.length, bs2) := getDecimal_encode hlen
    have hmany : parseMany xs.length bs2 = .ok (xs, []) := by
      have := parseMany_encodeList hflat hbs2 []
      simpa using this
    exact parse_star_many_ok hgd hmany
  | .simple s =>
    refine ⟨_, rfl, ?_⟩
    have := parse_encodeValue hok (f := .simple s) rfl []
    simpa using this
  | .error s =>
    refine ⟨_, rfl, ?_⟩
    have := parse_encodeValue hok (f := .error s) rfl []
    simpa using this
  | .integer n =>
    refine ⟨_, rfl, ?_⟩
    have := parse_encodeValue hok (f := .integer n) rfl []
    simpa using this
  | .null =>
    refine ⟨_, rfl, ?_⟩
    have := parse_encodeValue hok (f := .null) rfl []
    simpa using this
  | .bulk b =>
    refine ⟨_, rfl, ?_⟩
    have := parse_encodeValue hok (f := .bulk b) rfl []
    simpa using this

/-- C3: for every frame `F` with no array nested inside an array and no CR
or LF in `Simple`/`Error` text (and satisfying the Rust type invariants:
valid-UTF-8 strings, `u64`-bounded integers and lengths), encoding `F` with
`write_frame` succeeds and parsing the produced bytes yields `F` again,
consuming exactly those bytes. -/
theorem C3_theorem (F : Frame) (h : goodFrame F) :
    ∃ bs, encodeFrame F = some bs ∧ parse bs = .ok (F, []) :=
  parse_encodeFrame h

/-- Witness for `C3_theorem` at the concrete frame
`Array [Bulk "hi", Integer 42, Null, Simple "OK"]`. -/
theorem C3_witness :
    goodFrame (.array [.bulk [104, 105], .integer 42, .null, .simple [79, 75]]) ∧
    ∃ bs,
      encodeFrame (.array [.bulk [104, 105], .integer 42, .null, .simple [79, 75]]) =
        some bs ∧
      parse bs = .ok (.array [.bulk [104, 105], .integer 42, .null, .simple [79, 75]], []) := by
  have hg : goodFrame (.array [.bulk [104, 105], .integer 42, .null, .simple [79, 75]]) := by
    refine ⟨by norm_num, ?_⟩
    intro f hf
    simp only [List.mem_cons, List.mem_singleton] at hf
    rcases hf with rfl | rfl | rfl | rfl | h
    · show (2 : Nat) < 2 ^ 64
      norm_num
    · show (42 : Nat) < 2 ^ 64
      norm_num
    · trivial
    · refine ⟨by decide, by decide, by decide⟩
    · cases h
  exact ⟨hg, C3_theorem _ hg⟩

/-! ### The shared store (src/db.rs)

`Instant` and `Duration` are modelled as `Nat`.  The `entries` `HashMap` is
an association list with no duplicate keys; the `expirations` `BTreeSet` is
a list kept sorted in the lexicographic `(Instant, String)` order, so that
`iter().next()` is the head.  The `pub_sub` map and the `Notify` handle play
no role in the claims about `get`/`set`/`purge_expired_keys` and are not
modelled; the one-shot notification is modelled by the `Bool` that `set`
returns (`true` iff `notify_one` is called). -/

/-- `Entry`: stored data plus optional expiration instant. -/
structure Entry where
  data : List Nat
  expires_at : Option Nat
deriving DecidableEq, Repr

/-- `State`: the data guarded by the store mutex. -/
structure DbState where
  entries : List (String × Entry)
  expirations : List (Nat × String)
  shutdown : Bool
deriving DecidableEq, Repr

/-- The strict lexicographic order on `(Instant, String)` pairs used by the
`BTreeSet` (`Ord` on tuples in Rust). -/
def pairLt (p q : Nat × String) : Prop :=
  p.1 < q.1 ∨ (p.1 = q.1 ∧ p.2 < q.2)

instance (p q : Nat × String) : Decidable (pairLt p q) := by
  unfold pairLt
  exact inferInstance

theorem pairLt_trans {p q r : Nat × String} (h1 : pairLt p q) (h2 : pairLt q r) :
    pairLt p r := by
  rcases h1 with h1 | ⟨h1e, h1s⟩ <;> rcases h2 with h2 | ⟨h2e, h2s⟩
  · exact Or.inl (Nat.lt_trans h1 h2)
  · exact Or.inl (h2e ▸ h1)
  · exact Or.inl (h1e ▸ h2)
  · exact Or.inr ⟨h1e.trans h2e, lt_trans h1s h2s⟩

theorem pairLt_irrefl (p : Nat × String) : ¬pairLt p p := by
  rintro (h | ⟨-, h⟩)
  · exact Nat.lt_irrefl _ h
  · exact lt_irrefl _ h

theorem pairLt_total {p q : Nat × String} (h : p ≠ q) : pairLt p q ∨ pairLt q p := by
  rcases Nat.lt_trichotomy p.1 q.1 with h1 | h1 | h1
  · exact Or.inl (Or.inl h1)
  · rcases lt_trichotomy p.2 q.2 with h2 | h2 | h2
    · exact Or.inl (Or.inr ⟨h1, h2⟩)
    · exact absurd (Prod.ext h1 h2) h
    · exact Or.inr (Or.inr ⟨h1.symm, h2⟩)
  · exact Or.inr (Or.inl h1)

/-- `BTreeSet::insert`: ordered insertion, no duplicates. -/
def insertPair (p : Nat × String) : List (Nat × String) → List (Nat × String)
  | [] => [p]
  | q :: rest =>
    if pairLt p q then p :: q :: rest
    else if p = q then q :: rest
    else q :: insertPair p rest

theorem mem_insertPair {p q : Nat × String} :
    ∀ {l : List (Nat × String)}, (q ∈ insertPair p l ↔ q = p ∨ q ∈ l) := by
  intro l
  induction l with
  | nil => simp [insertPair]
  | cons q0 rest ih =>
    rw [insertPair]
    split
    · simp [or_comm, or_assoc, or_left_comm]
    · split
      · next hpq =>
        subst hpq
        simp only [List.mem_cons]
        constructor
        · exact Or.inr
        · rintro (h | h)
          · exact Or.inl h
          · exact h
      · simp only [List.mem_cons, ih]
        constructor
        · rintro (h | h | h)
          · exact Or.inr (Or.inl h)
          · exact Or.inl h
          · exact Or.inr (Or.inr h)
        · rintro (h | h | h)
          · exact Or.inr (Or.inl h)
          · exact Or.inl h
          · exact Or.inr (Or.inr h)

theorem pairwise_insertPair {p : Nat × String} :
    ∀ {l : List (Nat × String)}, l.Pairwise pairLt → (insertPair p l).Pairwise pairLt := by
  intro l
  induction l with
  | nil => intro; simp [insertPair]
  | cons q0 rest ih =>
    intro hp
    rw [List.pairwise_cons] at hp
    obtain ⟨hq0, hrest⟩ := hp
    rw [insertPair]
    split
    · next hlt =>
      rw [List.pairwise_cons]
      refine ⟨?_, List.pairwise_cons.mpr ⟨hq0, hrest⟩⟩
      intro q1 hq1
      rcases List.mem_cons.mp hq1 with h | h
      · exact h ▸ hlt
      · exact pairLt_trans hlt (hq0 q1 h)
    · split
      · exact List.pairwise_cons.mpr ⟨hq0, hrest⟩
      · next hnlt hne =>
        rw [List.pairwise_cons]
        refine ⟨?_, ih hrest⟩
        intro q1 hq1
        rcases mem_insertPair.mp hq1 with h | h
        · subst h
          rcases pairLt_total hne with h | h
          · exact absurd h hnlt
          · exact h
        · exact hq0 q1 h

/-- `State::next_expiration`: the first (least) element of the sorted
expiration index, when any. -/
def nextExpiration (st : DbState) : Option Nat :=
  st.expirations.head?.map (·.1)

/-- `Db::get` (db.rs lines 111–117): look the key up in `entries` and clone
its data; no expiry check is performed. -/
def dbGet (key : String) (st : DbState) : Option (List Nat) :=
  (st.entries.lookup key).map (·.data)

/-- The `if let Some(prev) = prev { if let Some(when) = prev.expires_at {
expirations.remove } }` block of `Db::set`: drop the prior binding's index
pair, if it had an expiration. -/
def removePrevPair (key : String) (prev : Option Entry)
    (exps : List (Nat × String)) : List (Nat × String) :=
  match prev with
  | some pe =>
    match pe.expires_at with
    | some whenPrev => exps.erase (whenPrev, key)
    | none => exps
  | none => exps

/-- `Db::set` (db.rs lines 122–172).  Returns the new state together with
the notify flag (`true` iff `background_task.notify_one()` is called).
`now + d` is the `Instant::now() + duration` expiration; the notify flag is
computed from `next_expiration` **before** the maps are touched; the entry
is inserted; a prior binding's `(when, key)` pair is removed from the
index; the new pair is inserted. -/
def dbSet (now : Nat) (key : String) (value : List Nat) (expire : Option Nat)
    (st : DbState) : DbState × Bool :=
  let notify := match expire with
    | none => false
    | some d =>
      match nextExpiration st with
      | none => true
      | some expiration => decide (now + d < expiration)
  let expires_at := expire.map (fun d => now + d)
  let prev := st.entries.lookup key
  let entries1 := (key, ⟨value, expires_at⟩) :: st.entries.filter (fun p => p.1 != key)
  let exps1 := removePrevPair key prev st.expirations
  let exps2 := match expires_at with
    | some whenNew => insertPair (whenNew, key) exps1
    | none => exps1
  ({ entries := entries1, expirations := exps2, shutdown := st.shutdown }, notify)

/-- The loop of `Shared::purge_expired_keys` (db.rs lines 240–249): take the
least index pair; if it is in the future, stop and return its instant;
otherwise remove the entry and the pair and continue. -/
def purgeLoop (now : Nat) :
    List (String × Entry) → List (Nat × String) →
    List (String × Entry) × List (Nat × String) × Option Nat
  | entries, [] => (entries, [], none)
  | entries, (when, key) :: rest =>
    if now < when then (entries, (when, key) :: rest, some when)
    else purgeLoop now (entries.filter (fun p => p.1 != key)) rest

/-- `Shared::purge_expired_keys` (db.rs lines 226–252): `None` immediately
when shutting down, otherwise purge all due keys and return the next
expiration instant. -/
def purgeExpiredKeys (now : Nat) (st : DbState) : DbState × Option Nat :=
  if st.shutdown then (st, none)
  else
    let res := purgeLoop now st.entries st.expirations
    ({ entries := res.1, expirations := res.2.1, shutdown := st.shutdown }, res.2.2)

/-- The expiration-index consistency invariant of claim C4: the index holds
exactly the pairs `(e.expires_at, k)` of entries with an expiration. -/
def Inv (st : DbState) : Prop :=
  ∀ t k, (t, k) ∈ st.expirations ↔
    ∃ e, st.entries.lookup k = some e ∧ e.expires_at = some t

/-- Structural well-formedness maintained by the Rust container types:
`HashMap` keys are unique and the `BTreeSet` is strictly sorted. -/
def Wf (st : DbState) : Prop :=
  (st.entries.map Prod.fst).Nodup ∧ st.expirations.Pairwise pairLt

/-! Association-list lemmas for the `entries` map. -/

theorem lookup_cons_self {k : String} {e : Entry} {m : List (String × Entry)} :
    ((k, e) :: m).lookup k = some e := by
  simp [List.lookup]

theorem lookup_cons_ne {k k' : String} {e : Entry} {m : List (String × Entry)}
    (h : k' ≠ k) : ((k, e) :: m).lookup k' = m.lookup k' := by
  rw [List.lookup]
  rw [show (k' == k) = false from beq_eq_false_iff_ne.mpr h]

theorem lookup_filter_self {key : String} :
    ∀ {m : List (String × Entry)},
      (m.filter (fun p => p.1 != key)).lookup key = none := by
  intro m
  induction m with
  | nil => simp
  | cons p m ih =>
    obtain ⟨k0, e0⟩ := p
    by_cases hk : k0 = key
    · subst hk
      simpa using ih
    · rw [List.filter_cons_of_pos (by simpa using hk)]
      rw [lookup_cons_ne (fun he => hk he.symm)]
      exact ih

theorem lookup_filter_ne {key k : String} (h : k ≠ key) :
    ∀ {m : List (String × Entry)},
      (m.filter (fun p => p.1 != key)).lookup k = m.lookup k := by
  intro m
  induction m with
  | nil => simp
  | cons p m ih =>
    obtain ⟨k0, e0⟩ := p
    by_cases hk : k0 = key
    · subst hk
      rw [List.filter_cons_of_neg (by simp)]
      rw [lookup_cons_ne h]
      exact ih
    · rw [List.filter_cons_of_pos (by simpa using hk)]
      by_cases hk2 : k = k0
      · subst hk2
        rw [lookup_cons_self, lookup_cons_self]
      · rw [lookup_cons_ne hk2, lookup_cons_ne hk2]
        exact ih

theorem nodup_of_pairwise {l : List (Nat × String)} (h : l.Pairwise pairLt) :
    l.Nodup :=
  h.imp (fun hlt => by rintro rfl; exact pairLt_irrefl _ hlt)

/-- `removePrevPair` never retains the pair of the key being overwritten. -/
theorem not_mem_removePrevPair (key : String) {st : DbState}
    (hinv : Inv st) (hnd : st.expirations.Nodup) (t' : Nat) :
    (t', key) ∉ removePrevPair key (st.entries.lookup key) st.expirations := by
  intro hmem
  cases hprev : st.entries.lookup key with
  | none =>
    rw [hprev] at hmem
    simp only [removePrevPair] at hmem
    obtain ⟨e, he, -⟩ := (hinv t' key).mp hmem
    rw [hprev] at he
    cases he
  | some pe =>
    rw [hprev] at hmem
    cases hpe : pe.expires_at with
    | none =>
      simp only [removePrevPair, hpe] at hmem
      obtain ⟨e, he, hexp⟩ := (hinv t' key).mp hmem
      rw [hprev] at he
      cases he
      rw [hpe] at hexp
      cases hexp
    | some whenPrev =>
      simp only [removePrevPair, hpe] at hmem
      obtain ⟨hne, hmem3⟩ := hnd.mem_erase_iff.mp hmem
      obtain ⟨e, he, hexp⟩ := (hinv t' key).mp hmem3
      rw [hprev] at he
      cases he
      rw [hpe] at hexp
      cases hexp
      exact hne rfl

/-- For other keys, `removePrevPair` does not change membership. -/
theorem mem_removePrevPair_ne {key k : String} {t : Nat} {prev : Option Entry}
    {exps : List (Nat × String)} (hk : k ≠ key) :
    ((t, k) ∈ removePrevPair key prev exps ↔ (t, k) ∈ exps) := by
  have hpairne : ∀ w : Nat, ((t, k) : Nat × String) ≠ (w, key) := by
    intro w he
    exact hk (congrArg Prod.snd he)
  cases prev with
  | none => rw [removePrevPair]
  | some pe =>
    cases hpe : pe.expires_at with
    | none => simp only [removePrevPair, hpe]
    | some whenPrev =>
      simp only [removePrevPair, hpe]
      exact List.mem_erase_of_ne (hpairne whenPrev)

/-- `Db::set` preserves the expiration-index invariant. -/
theorem inv_dbSet (now : Nat) (key : String) (value : List Nat)
    (expire : Option Nat) (st : DbState) (hwf : Wf st) (hinv : Inv st) :
    Inv (dbSet now key value expire st).1 := by
  obtain ⟨-, hpw⟩ := hwf
  have hnd : st.expirations.Nodup := nodup_of_pairwise hpw
  have hstale := not_mem_removePrevPair key hinv hnd
  intro t k
  by_cases hk : k = key
  · subst hk
    cases hexp : expire with
    | none =>
      simp only [dbSet, hexp, Option.map_none']
      constructor
      · intro hmem
        exact absurd hmem (hstale t)
      · rintro ⟨e, he, hexpat⟩
        rw [lookup_cons_self] at he
        cases he
        cases hexpat
    | some d =>
      simp only [dbSet, hexp, Option.map_some']
      rw [mem_insertPair]
      constructor
      · rintro (heq | hmem)
        · cases heq
          exact ⟨⟨value, some (now + d)⟩, lookup_cons_self, rfl⟩
        · exact absurd hmem (hstale t)
      · rintro ⟨e, he, hexpat⟩
        rw [lookup_cons_self] at he
        cases he
        simp only at hexpat
        cases hexpat
        exact Or.inl rfl
  · have hpairne : ∀ w : Nat, ((t, k) : Nat × String) ≠ (w, key) := by
      intro w he
      exact hk (congrArg Prod.snd he)
    have hrhs : ((st.entries.filter (fun p => p.1 != key)).lookup k) =
        st.entries.lookup k := lookup_filter_ne hk
    cases hexp : expire with
    | none =>
      simp only [dbSet, hexp, Option.map_none']
      rw [mem_removePrevPair_ne hk, hinv t k]
      constructor
      · rintro ⟨e, he, hx⟩
        refine ⟨e, ?_, hx⟩
        rw [lookup_cons_ne hk, hrhs]
        exact he
      · rintro ⟨e, he, hx⟩
        rw [lookup_cons_ne hk, hrhs] at he
        exact ⟨e, he, hx⟩
    | some d =>
      simp only [dbSet, hexp, Option.map_some']
      rw [mem_insertPair]
      constructor
      · rintro (heq | hmem)
        · exact absurd heq (hpairne (now + d))
        · obtain ⟨e, he, hx⟩ := (hinv t k).mp ((mem_removePrevPair_ne hk).mp hmem)
          refine ⟨e, ?_, hx⟩
          rw [lookup_cons_ne hk, hrhs]
          exact he
      · rintro ⟨e, he, hx⟩
        rw [lookup_cons_ne hk, hrhs] at he
        exact Or.inr ((mem_removePrevPair_ne hk).mpr ((hinv t k).mpr ⟨e, he, hx⟩))

/-- The purge loop preserves the expiration-index invariant. -/
theorem inv_purgeLoop (now : Nat) :
    ∀ (exps : List (Nat × String)) (entries : List (String × Entry)),
      exps.Pairwise pairLt →
      (∀ t k, (t, k) ∈ exps ↔ ∃ e, entries.lookup k = some e ∧ e.expires_at = some t) →
      (∀ t k, (t, k) ∈ (purgeLoop now entries exps).2.1 ↔
        ∃ e, (purgeLoop now entries exps).1.lookup k = some e ∧
          e.expires_at = some t) := by
  intro exps
  induction exps with
  | nil =>
    intro entries hpw hinv
    simpa [purgeLoop] using hinv
  | cons p rest ih =>
    obtain ⟨when, key⟩ := p
    intro entries hpw hinv
    rw [List.pairwise_cons] at hpw
    obtain ⟨hhead, hrest⟩ := hpw
    by_cases hlt : now < when
    · intro t k
      simp only [purgeLoop, if_pos hlt]
      exact hinv t k
    · simp only [purgeLoop, if_neg hlt]
      apply ih _ hrest
      intro t k
      by_cases hk : k = key
      · subst hk
        rw [lookup_filter_self]
        constructor
        · intro hmem
          obtain ⟨e, he, hx⟩ := (hinv t k).mp (List.mem_cons_of_mem _ hmem)
          obtain ⟨e2, he2, hx2⟩ := (hinv when k).mp (List.mem_cons_self _ _)
          rw [he] at he2
          cases he2
          rw [hx] at hx2
          cases hx2
          exact absurd (hhead _ hmem) (pairLt_irrefl _)
        · rintro ⟨e, he, -⟩
          cases he
      · rw [lookup_filter_ne hk]
        have hne : ((t, k) : Nat × String) ≠ (when, key) := fun he =>
          hk (congrArg Prod.snd he)
        constructor
        · intro hmem
          exact (hinv t k).mp (List.mem_cons_of_mem _ hmem)
        · intro hrhs
          rcases List.mem_cons.mp ((hinv t k).mpr hrhs) with he | hm
          · exact absurd he hne
          · exact hm

/-- `Shared::purge_expired_keys` preserves the expiration-index invariant. -/
theorem inv_purge (now : Nat) (st : DbState) (hwf : Wf st) (hinv : Inv st) :
    Inv (purgeExpiredKeys now st).1 := by
  unfold purgeExpiredKeys
  split
  · exact hinv
  · exact fun t k => inv_purgeLoop now st.expirations st.entries hwf.2 hinv t k

theorem dbSet_lookup_self (now : Nat) (key : String) (value : List Nat)
    (expire : Option Nat) (st : DbState) :
    ((dbSet now key value expire st).1.entries).lookup key =
      some ⟨value, expire.map (fun d => now + d)⟩ :=
  lookup_cons_self

/-- C4: at every quiescent point the expiration index holds exactly the
pairs `(e.expires_at, k)` of entries with an expiration; `set` (with or
without a ttl, with or without a prior binding) and `purge_expired_keys`
preserve this equality, and after a `set` the only index pair for the key
is the new one — any prior binding's stale pair is gone. -/
theorem C4_theorem (now : Nat) (key : String) (value : List Nat)
    (expire : Option Nat) (st : DbState) (hwf : Wf st) (hinv : Inv st) :
    Inv (dbSet now key value expire st).1 ∧
    Inv (purgeExpiredKeys now st).1 ∧
    (∀ w, ((w, key) ∈ (dbSet now key value expire st).1.expirations ↔
      expire.map (fun d => now + d) = some w)) := by
  refine ⟨inv_dbSet now key value expire st hwf hinv,
    inv_purge now st hwf hinv, ?_⟩
  intro w
  rw [inv_dbSet now key value expire st hwf hinv w key]
  constructor
  · rintro ⟨e, he, hx⟩
    rw [dbSet_lookup_self] at he
    cases he
    exact hx
  · intro hx
    exact ⟨⟨value, expire.map (fun d => now + d)⟩, dbSet_lookup_self .., hx⟩

/-- Witness for `C4_theorem`: a one-entry store whose key `"a"` expires at
instant 5, overwritten with a fresh ttl. -/
theorem C4_witness :
    (Wf ⟨[("a", ⟨[1], some 5⟩)], [(5, "a")], false⟩ ∧
      Inv ⟨[("a", ⟨[1], some 5⟩)], [(5, "a")], false⟩) ∧
    (Inv (dbSet 3 "a" [2] (some 4) ⟨[("a", ⟨[1], some 5⟩)], [(5, "a")], false⟩).1 ∧
      Inv (purgeExpiredKeys 3 ⟨[("a", ⟨[1], some 5⟩)], [(5, "a")], false⟩).1 ∧
      ∀ w, ((w, "a") ∈ (dbSet 3 "a" [2] (some 4)
          ⟨[("a", ⟨[1], some 5⟩)], [(5, "a")], false⟩).1.expirations ↔
        (some 4 : Option Nat).map (fun d => 3 + d) = some w)) := by
  have hwf : Wf ⟨[("a", ⟨[1], some 5⟩)], [(5, "a")], false⟩ := by
    constructor
    · simp
    · simp
  have hinv : Inv ⟨[("a", ⟨[1], some 5⟩)], [(5, "a")], false⟩ := by
    intro t k
    simp only [List.mem_singleton, Prod.mk.injEq]
    constructor
    · rintro ⟨rfl, rfl⟩
      exact ⟨⟨[1], some 5⟩, lookup_cons_self, rfl⟩
    · rintro ⟨e, he, hx⟩
      by_cases hk : k = "a"
      · subst hk
        rw [lookup_cons_self] at he
        cases he
        cases hx
        exact ⟨rfl, rfl⟩
      · rw [lookup_cons_ne hk] at he
        cases he
  exact ⟨⟨hwf, hinv⟩, C4_theorem 3 "a" [2] (some 4) _ hwf hinv⟩

/-- C5: `Db::get` returns the stored data for every key present in
`entries`, even when the current instant is past the entry's `expires_at`
(no expiry check on read); it returns `None` exactly when the key is absent
from `entries`. -/
theorem C5_theorem (st : DbState) (key : String) :
    (∀ (e : Entry) (t now : Nat), st.entries.lookup key = some e →
      e.expires_at = some t → t ≤ now → dbGet key st = some e.data) ∧
    (dbGet key st = none ↔ st.entries.lookup key = none) := by
  constructor
  · intro e t now he h1 h2
    simp [dbGet, he]
  · simp [dbGet, Option.map_eq_none']

/-- Witness for `C5_theorem`: the key `"a"` expired at instant 5 but is
still present; at instant 9 `get` still returns its data. -/
theorem C5_witness :
    List.lookup "a" (DbState.entries ⟨[("a", ⟨[7], some 5⟩)], [(5, "a")], false⟩) =
        some ⟨[7], some 5⟩ ∧
    (5 : Nat) ≤ 9 ∧
    dbGet "a" ⟨[("a", ⟨[7], some 5⟩)], [(5, "a")], false⟩ = some [7] := by
  have he : List.lookup "a" (DbState.entries ⟨[("a", ⟨[7], some 5⟩)], [(5, "a")], false⟩) =
      some ⟨[7], some 5⟩ := lookup_cons_self
  exact ⟨he, by omega,
    (C5_theorem ⟨[("a", ⟨[7], some 5⟩)], [(5, "a")], false⟩ "a").1 ⟨[7], some 5⟩ 5 9 he rfl
      (by omega)⟩

/-- C6: `set` with a ttl notifies the reaper iff the new expiration
`now + ttl` is strictly earlier than the head of the expiration index as it
was before the set, or the index was empty; a `set` without ttl never
notifies. -/
theorem C6_theorem (now : Nat) (key : String) (value : List Nat)
    (expire : Option Nat) (st : DbState) :
    ((dbSet now key value expire st).2 = true ↔
      ∃ d, expire = some d ∧
        (nextExpiration st = none ∨
          ∃ h, nextExpiration st = some h ∧ now + d < h)) ∧
    (expire = none → (dbSet now key value expire st).2 = false) := by
  constructor
  · cases hexp : expire with
    | none => simp [dbSet]
    | some d =>
      cases hne : nextExpiration st with
      | none => simp [dbSet, hne]
      | some hd => simp [dbSet, hne]
  · rintro rfl
    simp [dbSet]

/-- How the purge loop transforms the store, on a sorted index: the pairs
with `instant ≤ now` (an initial segment) are removed along with their
entries, the rest survives, and the returned instant is the head of the
remainder. -/
theorem purgeLoop_spec (now : Nat) :
    ∀ (exps : List (Nat × String)) (entries : List (String × Entry)),
      exps.Pairwise pairLt →
      purgeLoop now entries exps =
        (entries.filter (fun p =>
            (exps.filter (fun q => decide (q.1 ≤ now))).all (fun q => q.2 != p.1)),
         exps.filter (fun p => decide (now < p.1)),
         (exps.filter (fun p => decide (now < p.1))).head?.map (·.1)) := by
  intro exps
  induction exps with
  | nil =>
    intro entries hpw
    simp [purgeLoop]
  | cons p rest ih =>
    obtain ⟨when, key⟩ := p
    intro entries hpw
    rw [List.pairwise_cons] at hpw
    obtain ⟨hhead, hrest⟩ := hpw
    have hle : ∀ q ∈ rest, when ≤ q.1 := by
      intro q hq
      rcases hhead q hq with h | ⟨he, -⟩
      · exact Nat.le_of_lt h
      · exact Nat.le_of_eq he
    by_cases hlt : now < when
    · rw [purgeLoop, if_pos hlt]
      have hfle : ((when, key) :: rest).filter (fun q => decide (q.1 ≤ now)) = [] := by
        rw [List.filter_eq_nil_iff]
        intro q hq
        rcases List.mem_cons.mp hq with rfl | hm
        · simp
          omega
        · have := hle q hm
          simp
          omega
      have hfgt : ((when, key) :: rest).filter (fun p => decide (now < p.1)) =
          (when, key) :: rest := by
        rw [List.filter_eq_self]
        intro q hq
        rcases List.mem_cons.mp hq with rfl | hm
        · simp
          omega
        · have := hle q hm
          simp
          omega
      rw [hfle, hfgt]
      simp
    · rw [purgeLoop, if_neg hlt, ih _ hrest]
      have hwhen : when ≤ now := by omega
      rw [List.filter_cons_of_pos (by simp; omega)]
      rw [List.filter_cons_of_neg (by simp; omega)]
      refine Prod.ext ?_ rfl
      rw [List.filter_filter]
      apply List.filter_congr
      intro p hp
      rw [List.all_cons]
      rw [Bool.and_comm]
      congr 1
      show (p.1 != key) = (key != p.1)
      simp only [bne]
      by_cases hk : p.1 = key
      · rw [hk]
      · rw [beq_eq_false_iff_ne.mpr hk, beq_eq_false_iff_ne.mpr (fun h => hk h.symm)]

/-- C7: `purge_expired_keys` returns `None` and changes nothing when the
store is shutting down; otherwise (on the sorted index) it removes exactly
the index pairs with `instant ≤ now` and their entries, scanning in
ascending order, stops at the first future pair and returns its instant
(`None` when no future pair remains). -/
theorem C7_theorem (now : Nat) (st : DbState)
    (hsorted : st.expirations.Pairwise pairLt) :
    (st.shutdown = true → purgeExpiredKeys now st = (st, none)) ∧
    (st.shutdown = false →
      (purgeExpiredKeys now st).1.entries = st.entries.filter (fun p =>
        (st.expirations.filter (fun q => decide (q.1 ≤ now))).all
          (fun q => q.2 != p.1)) ∧
      (purgeExpiredKeys now st).1.expirations =
        st.expirations.filter (fun p => decide (now < p.1)) ∧
      (purgeExpiredKeys now st).2 =
        (st.expirations.filter (fun p => decide (now < p.1))).head?.map (·.1)) := by
  constructor
  · intro hsd
    rw [purgeExpiredKeys, if_pos hsd]
  · intro hsd
    rw [purgeExpiredKeys, if_neg (by rw [hsd]; exact Bool.false_ne_true)]
    rw [purgeLoop_spec now st.expirations st.entries hsorted]
    exact ⟨rfl, rfl, rfl⟩

/-- Witness for `C7_theorem`: a sorted two-pair index with one due key at
`now = 6`; the due pair and entry go, the future pair stays and is
returned. -/
theorem C7_witness :
    List.Pairwise pairLt [(5, "a"), (9, "b")] ∧
    DbState.shutdown ⟨[("a", ⟨[1], some 5⟩), ("b", ⟨[2], some 9⟩)],
      [(5, "a"), (9, "b")], false⟩ = false ∧
    (purgeExpiredKeys 6 ⟨[("a", ⟨[1], some 5⟩), ("b", ⟨[2], some 9⟩)],
      [(5, "a"), (9, "b")], false⟩).1.expirations =
      List.filter (fun p => decide (6 < p.1)) [(5, "a"), (9, "b")] := by
  have hpw : List.Pairwise pairLt [(5, "a"), (9, "b")] := by
    constructor
    · intro q hq
      rcases List.mem_singleton.mp hq with rfl
      exact Or.inl (by omega)
    · simp
  exact ⟨hpw, rfl,
    ((C7_theorem 6 ⟨[("a", ⟨[1], some 5⟩), ("b", ⟨[2], some 9⟩)],
      [(5, "a"), (9, "b")], false⟩ hpw).2 rfl).2.1⟩

/-! ### The listener accept loop (src/server.rs, lines 207–229) -/

/-- One attempt of `TcpListener::accept`: a socket is accepted or the
accept fails. -/
inductive AcceptOutcome where
  | success : AcceptOutcome
  | failure : AcceptOutcome
deriving DecidableEq, Repr

/-- The result of `Listener::accept`: the accepted socket, or the error
propagated to the caller. -/
inductive AcceptResult where
  | okSocket : AcceptResult
  | errProp : AcceptResult
deriving DecidableEq, Repr

/-- `Listener::accept` over a finite prefix of attempt outcomes, starting
from the given `backoff`: on success return the socket before any sleep; on
failure return the error if `backoff > 64`, else sleep `backoff` seconds,
double it and retry.  Returns `none` when the attempt prefix is exhausted
with the loop still running, paired with the list of sleeps performed. -/
def acceptLoop : Nat → List AcceptOutcome → Option AcceptResult × List Nat
  | _, [] => (none, [])
  | _, .success :: _ => (some .okSocket, [])
  | backoff, .failure :: rest =>
    if backoff > 64 then (some .errProp, [])
    else
      let r := acceptLoop (backoff * 2) rest
      (r.1, backoff :: r.2)

/-- `Listener::accept` starts with `backoff = 1`. -/
def listenerAccept (attempts : List AcceptOutcome) : Option AcceptResult × List Nat :=
  acceptLoop 1 attempts

/-- C8, counterexample: after the 7th consecutive failure the loop does
**not** propagate the error — it sleeps 64 s and retries: with 7 failures
followed by a success it returns the socket, and with exactly 7 failures it
is still running.  (The error is propagated only on the 8th failure.) -/
theorem C8_counterexample :
    listenerAccept (List.replicate 7 .failure ++ [.success]) =
      (some .okSocket, [1, 2, 4, 8, 16, 32, 64]) ∧
    listenerAccept (List.replicate 7 .failure) = (none, [1, 2, 4, 8, 16, 32, 64]) := by
  decide

/-- C8 (amended): consecutive accept failures are retried with exponential
backoff sleeps of 1, 2, 4, 8, 16, 32, 64 seconds, and the accept error is
propagated on the **8th** consecutive failure (when the backoff, now 128,
exceeds 64); with at most 7 consecutive failures before a success, the
socket is returned after the corresponding prefix of sleeps. -/
theorem C8_theorem :
    (∀ rest, listenerAccept (List.replicate 8 .failure ++ rest) =
      (some .errProp, [1, 2, 4, 8, 16, 32, 64])) ∧
    (∀ n rest, n ≤ 7 →
      listenerAccept (List.replicate n .failure ++ .success :: rest) =
        (some .okSocket, (List.range n).map (2 ^ ·))) := by
  constructor
  · intro rest
    simp [listenerAccept, acceptLoop, List.replicate_succ]
  · intro n rest hn
    interval_cases n <;> simp [listenerAccept, acceptLoop, List.replicate_succ] <;> decide

/-- Witness for `C8_theorem`: 8 straight failures propagate the error after
sleeping 1…64 s, and 3 failures before a success yield the socket after
sleeping 1, 2, 4 s. -/
theorem C8_witness :
    listenerAccept (List.replicate 8 .failure ++ []) =
      (some .errProp, [1, 2, 4, 8, 16, 32, 64]) ∧
    ((3 : Nat) ≤ 7 ∧
      listenerAccept (List.replicate 3 .failure ++ .success :: []) =
        (some .okSocket, (List.range 3).map (2 ^ ·))) :=
  ⟨C8_theorem.1 [], by omega, C8_theorem.2 3 [] (by omega)⟩

/-! ### `Connection::read_frame` (src/connection.rs, lines 41–98) -/

/-- The message of `frame::Error`'s `Display` impl, used when `parse_frame`
turns a frame error into a connection error (`Err(e.into())`). -/
def frameErrorMsg : FrameError → String
  | .incomplete => "stream ended early"
  | .other msg => msg

/-- `Connection::parse_frame`: run `check` on the buffered bytes; on
success re-`parse` from the start and advance the buffer by the bytes the
check consumed; `Incomplete` means no frame yet (`Ok(None)`); any other
error is fatal for the connection. -/
def parseFrame (buffer : List Nat) : Except String (Option (Frame × List Nat)) :=
  match check buffer with
  | .ok rChk =>
    match parse buffer with
    | .ok (f, _) => .ok (some (f, rChk))
    | .error e => .error (frameErrorMsg e)
  | .error .incomplete => .ok none
  | .error (.other msg) => .error msg

/-- `Connection::read_frame` over the list of byte chunks the peer delivers
before closing the stream: try to parse a frame from the buffer; if the
data is incomplete, read the next chunk; at end of stream (`read_buf`
returns 0) return `None` when the buffer is empty and the
connection-reset error otherwise. -/
def readFrame : List Nat → List (List Nat) →
    Except String (Option (Frame × List Nat))
  | buffer, [] =>
    match parseFrame buffer with
    | .ok (some fr) => .ok (some fr)
    | .error e => .error e
    | .ok none => if buffer = [] then .ok none else .error "对等方重置了连接"
  | buffer, c :: rest =>
    match parseFrame buffer with
    | .ok (some fr) => .ok (some fr)
    | .error e => .error e
    | .ok none => readFrame (buffer ++ c) rest

/-- The loop reaches the end-of-stream branch: every intermediate buffer is
incomplete, so each chunk is read and the close is observed. -/
def reachesClose : List Nat → List (List Nat) → Bool
  | buffer, [] =>
    match parseFrame buffer with
    | .ok none => true
    | _ => false
  | buffer, c :: rest =>
    match parseFrame buffer with
    | .ok none => reachesClose (buffer ++ c) rest
    | _ => false

theorem parseFrame_nil : parseFrame [] = .ok none := by
  rw [parseFrame, check_nil]

/-- C9: `read_frame` returns `Ok(None)` exactly when the peer's close is
seen with an empty read buffer (nothing was buffered at all); when the
close is reached with a non-empty buffer (mid-frame), it returns the
connection-reset error rather than `None` or a frame. -/
theorem C9_theorem (buffer : List Nat) (chunks : List (List Nat)) :
    (readFrame buffer chunks = .ok none ↔ buffer ++ chunks.flatten = []) ∧
    (reachesClose buffer chunks = true → buffer ++ chunks.flatten ≠ [] →
      readFrame buffer chunks = .error "对等方重置了连接") := by
  constructor
  · induction chunks generalizing buffer with
    | nil =>
      rw [readFrame]
      cases hpf : parseFrame buffer with
      | ok o =>
        cases o with
        | none =>
          by_cases hb : buffer = []
          · subst hb
            simp
          · simp only [if_neg hb]
            constructor
            · intro h; cases h
            · intro h
              exact absurd (by simpa using h) hb
        | some fr =>
          constructor
          · intro h; cases h
          · intro h
            have hb : buffer = [] := by simpa using h
            subst hb
            rw [parseFrame_nil] at hpf
            cases hpf
      | error e =>
        constructor
        · intro h; cases h
        · intro h
          have hb : buffer = [] := by simpa using h
          subst hb
          rw [parseFrame_nil] at hpf
          cases hpf
    | cons c rest ih =>
      rw [readFrame]
      cases hpf : parseFrame buffer with
      | ok o =>
        cases o with
        | none =>
          rw [ih (buffer ++ c)]
          simp [List.append_assoc]
        | some fr =>
          constructor
          · intro h; cases h
          · intro h
            have hb : buffer = [] := by
              have := congrArg List.length h
              simp at this
              exact this.1
            subst hb
            rw [parseFrame_nil] at hpf
            cases hpf
      | error e =>
        constructor
        · intro h; cases h
        · intro h
          have hb : buffer = [] := by
            have := congrArg List.length h
            simp at this
            exact this.1
          subst hb
          rw [parseFrame_nil] at hpf
          cases hpf
  · induction chunks generalizing buffer with
    | nil =>
      intro hrc hne
      rw [readFrame]
      rw [reachesClose] at hrc
      cases hpf : parseFrame buffer with
      | ok o =>
        cases o with
        | none =>
          rw [if_neg (by simpa using hne)]
        | some fr => rw [hpf] at hrc; cases hrc
      | error e => rw [hpf] at hrc; cases hrc
    | cons c rest ih =>
      intro hrc hne
      rw [readFrame]
      rw [reachesClose] at hrc
      cases hpf : parseFrame buffer with
      | ok o =>
        cases o with
        | none =>
          rw [hpf] at hrc
          apply ih (buffer ++ c) hrc
          intro h
          apply hne
          simpa [List.append_assoc] using h
        | some fr => rw [hpf] at hrc; cases hrc
      | error e => rw [hpf] at hrc; cases hrc

/-- Witness for `C9_theorem`: a lone `+` byte then close is mid-frame and
errors; no bytes then close is a clean `None`. -/
theorem C9_witness :
    reachesClose [43] [] = true ∧ ([43] : List Nat) ++ List.flatten [] ≠ [] ∧
    readFrame [43] [] = .error "对等方重置了连接" ∧
    readFrame [] [] = .ok none := by
  have h1 : parseFrame [43] = .ok none := by
    rw [parseFrame, check_plus_none (by simp [getLine])]
  have hrc : reachesClose [43] [] = true := by
    rw [reachesClose, h1]
  have hne : ([43] : List Nat) ++ List.flatten [] ≠ [] := by simp
  exact ⟨hrc, hne, (C9_theorem [43] []).2 hrc hne, (C9_theorem [] []).1.mpr rfl⟩

/-! ### The shutdown observer (src/shutdown.rs) -/

/-- The state of one `Shutdown` observer together with its broadcast
channel: `fired` is whether the single `()` value has been sent on the
channel; `is_shutdown` is the observer's latch field. -/
structure ShutdownObs where
  fired : Bool
  is_shutdown : Bool
deriving DecidableEq, Repr

/-- Events visible to one observer. -/
inductive SEvent where
  | fire : SEvent
  | recv : SEvent
deriving DecidableEq, Repr

/-- One completed step.  `fire` is the broadcast sending its value.  A
`recv` call completes immediately (returning, state unchanged) when
`is_shutdown` is already set; otherwise it can complete only once the
broadcast has fired — `notify.recv().await` resolves and `is_shutdown` is
set — and blocks (`none`) when the broadcast has not fired. -/
def sstep (s : ShutdownObs) : SEvent → Option ShutdownObs
  | .fire => some { s with fired := true }
  | .recv =>
    if s.is_shutdown then some s
    else if s.fired then some { s with is_shutdown := true }
    else none

/-- Run a sequence of completed events. -/
def srun (s : ShutdownObs) : List SEvent → Option ShutdownObs
  | [] => some s
  | e :: es =>
    match sstep s e with
    | none => none
    | some s2 => srun s2 es

/-- `Shutdown::new`: not yet shut down, broadcast not yet fired. -/
def shutdownInit : ShutdownObs := { fired := false, is_shutdown := false }

/-- C10: `is_shutdown()` is false until the broadcast fires (in every
reachable state where the broadcast has not fired, the flag is false); once
true it stays true under every later completed trace (it never reverts);
`recv()` on a shut-down observer completes immediately without changing the
state; and `recv()` blocks exactly while the observer is neither shut down
nor notified — it awaits the first notification. -/
theorem C10_theorem :
    (∀ tr s, srun shutdownInit tr = some s → s.fired = false →
      s.is_shutdown = false) ∧
    (∀ tr s s2, srun s tr = some s2 → s.is_shutdown = true →
      s2.is_shutdown = true) ∧
    (∀ s, s.is_shutdown = true → sstep s .recv = some s) ∧
    (∀ s, sstep s .recv = none ↔ (s.is_shutdown = false ∧ s.fired = false)) := by
  have hstep_inv : ∀ s e s2, sstep s e = some s2 →
      (s.is_shutdown = true → s.fired = true) →
      (s2.is_shutdown = true → s2.fired = true) := by
    intro s e s2 hs hi
    cases e with
    | fire =>
      rw [sstep] at hs
      cases hs
      intro
      rfl
    | recv =>
      rw [sstep] at hs
      by_cases hsd : s.is_shutdown
      · rw [if_pos hsd] at hs
        cases hs
        exact hi
      · rw [if_neg hsd] at hs
        by_cases hf : s.fired
        · rw [if_pos hf] at hs
          cases hs
          intro
          exact hf
        · rw [if_neg hf] at hs
          cases hs
  have hstep_latch : ∀ s e s2, sstep s e = some s2 → s.is_shutdown = true →
      s2.is_shutdown = true := by
    intro s e s2 hs hsd
    cases e with
    | fire =>
      rw [sstep] at hs
      cases hs
      exact hsd
    | recv =>
      rw [sstep, if_pos hsd] at hs
      cases hs
      exact hsd
  have hrun_inv : ∀ tr s s2, srun s tr = some s2 →
      (s.is_shutdown = true → s.fired = true) →
      (s2.is_shutdown = true → s2.fired = true) := by
    intro tr
    induction tr with
    | nil =>
      intro s s2 hs hi
      rw [srun] at hs
      cases hs
      exact hi
    | cons e es ih =>
      intro s s2 hs hi
      rw [srun] at hs
      cases hst : sstep s e with
      | none => rw [hst] at hs; cases hs
      | some s3 =>
        rw [hst] at hs
        exact ih s3 s2 hs (hstep_inv s e s3 hst hi)
  refine ⟨?_, ?_, ?_, ?_⟩
  · intro tr s hs hf
    by_contra hsd
    rw [Bool.not_eq_false] at hsd
    have := hrun_inv tr shutdownInit s hs (fun h => by cases h) hsd
    rw [hf] at this
    cases this
  · intro tr
    induction tr with
    | nil =>
      intro s s2 hs hsd
      rw [srun] at hs
      cases hs
      exact hsd
    | cons e es ih =>
      intro s s2 hs hsd
      rw [srun] at hs
      cases hst : sstep s e with
      | none => rw [hst] at hs; cases hs
      | some s3 =>
        rw [hst] at hs
        exact ih s3 s2 hs (hstep_latch s e s3 hst hsd)
  · intro s hsd
    rw [sstep, if_pos hsd]
  · intro s
    rw [sstep]
    by_cases hsd : s.is_shutdown
    · rw [if_pos hsd]
      simp [hsd]
    · rw [if_neg hsd]
      by_cases hf : s.fired
      · rw [if_pos hf]
        simp [hf]
      · rw [if_neg hf]
        simp [Bool.eq_false_iff, hsd, hf]

/-- Witness for `C10_theorem`: after `[fire, recv]` the flag is set and a
further `recv` returns immediately; before any event the flag is false. -/
theorem C10_witness :
    srun shutdownInit [] = some shutdownInit ∧
    shutdownInit.is_shutdown = false ∧
    srun ⟨true, true⟩ [.recv, .recv] = some ⟨true, true⟩ ∧
    sstep ⟨true, true⟩ .recv = some ⟨true, true⟩ ∧
    (sstep shutdownInit .recv = none ↔
      (shutdownInit.is_shutdown = false ∧ shutdownInit.fired = false)) := by
  refine ⟨by decide, ?_, ?_, ?_, C10_theorem.2.2.2 shutdownInit⟩
  · exact C10_theorem.1 [] shutdownInit (by decide) rfl
  · exact C10_theorem.2.1 [.recv, .recv] ⟨true, true⟩ ⟨true, true⟩ (by decide) rfl ▸
      (by decide)
  · exact C10_theorem.2.2.1 ⟨true, true⟩ rfl

end MiniRedis
